import Mathlib

/-!
# cocos-poc: sequence game and band input queue

Shallow embedding of `Classes/SequenceGame.cpp`, `Classes/SequenceGame.h`,
`Classes/BandInput.h` and the event queue of `Classes/BandInput.cpp`.

Conventions of the embedding

* `float` timestamps and pitch values are rationals: every finite float is a
  rational and the comparisons the code performs on them agree with the
  rational order (NaN and infinities are not produced by the timestamp
  sources, which divide an unsigned microsecond counter by 1e6).
* `float` constants stand for their binary32 values: `1.25f` and `2.0f` are
  `5/4` and `2`, and `0.15f` is `5033165/33554432` (`pitch_tolerance`), a little
  above `3/20`. The operations on pitch values are carried out exactly.
* `std::map` is an association list kept in ascending key order with unique
  keys (`mapSet`, `mapFind`, `mapErase`).
* `unsigned` band ids and `size_t` counters are naturals; the counters
  `current` and `missed` only ever count judged observations.
* `BandData::Dir` is an `int`-valued enumeration, `DOWN = -2` to `UP = 2`.
* Undefined behaviour (an out-of-range subscript) and an exhausted supply of
  random draws are explicit `Except` errors.
* Console logging (`std::cerr`) and scene-graph nodes are not modelled.
-/

namespace CocosPoc

/-! ## std::map -/

/-- Assignment `m[k] = v`: overwrite the entry of `k` or insert it in key order. -/
def mapSet {κ ν : Type} [LinearOrder κ] (k : κ) (v : ν) : List (κ × ν) → List (κ × ν)
  | [] => [(k, v)]
  | (k', v') :: rest =>
    if k < k' then (k, v) :: (k', v') :: rest
    else if k = k' then (k, v) :: rest
    else (k', v') :: mapSet k v rest

/-- Lookup `m.find(k)`. -/
def mapFind {κ ν : Type} [DecidableEq κ] (k : κ) : List (κ × ν) → Option ν
  | [] => none
  | (k', v') :: rest => if k = k' then some v' else mapFind k rest

/-- Removal `m.erase(k)`. -/
def mapErase {κ ν : Type} [DecidableEq κ] (k : κ) : List (κ × ν) → List (κ × ν)
  | [] => []
  | (k', v') :: rest => if k = k' then rest else (k', v') :: mapErase k rest

/-! ## Data model (SequenceGame.h, SequenceGame.cpp:18-37) -/

/-- The enumeration `BandData::Dir`, carried as its integer value. -/
abbrev Dir := Int

/-- Enumerator `DOWN = -2`. -/
def DOWN : Dir := -2
/-- Enumerator `LOW = -1`. -/
def LOW : Dir := -1
/-- Enumerator `LEVEL = 0`. -/
def LEVEL : Dir := 0
/-- Enumerator `HIGH = 1`. -/
def HIGH : Dir := 1
/-- Enumerator `UP = 2`. -/
def UP : Dir := 2

/-- Ways in which a run of the model stops without a defined result. -/
inductive Fault where
  /-- A vector subscript outside the vector (undefined behaviour in the source). -/
  | outOfBounds
  /-- The finite supply of random draws given to the model is used up. -/
  | starved
  deriving DecidableEq, Repr

deriving instance DecidableEq for Except

/-- The fields of `struct BandData` that carry game state (`game` and `arrow` are
handles to the owner and to the scene node). -/
structure BandData where
  id : Nat
  cur_dir : Dir
  deriving DecidableEq, Repr

/-- The fields of `struct GameData`; `rd` is the external entropy source and
`game` the back reference to the owner. -/
structure GameData where
  sequence : List (Nat × Dir)
  backlog : List (ℚ × List (Nat × Dir))
  band_ts : List (Nat × ℚ)
  current : Nat
  missed : Nat
  start_ts : ℚ
  listening : Bool
  deriving DecidableEq

/-- The fields of `class SequenceGame`. -/
structure SequenceGame where
  bands : List (Nat × BandData)
  data : GameData
  start_ts : ℚ
  deriving DecidableEq

/-- Constructor `GameData::GameData`: `current(0), missed(0), listening(false)`, the
containers empty; `start_ts` is left uninitialised and is given by `ts0`. -/
def GameData.init (ts0 : ℚ) : GameData :=
  { sequence := [], backlog := [], band_ts := [], current := 0, missed := 0,
    start_ts := ts0, listening := false }

/-- Constructor `SequenceGame::SequenceGame`: no bands, fresh data, `start_ts(0)`. -/
def SequenceGame.init (ts0 : ℚ) : SequenceGame :=
  { bands := [], data := GameData.init ts0, start_ts := 0 }

/-- The static `sentinel` band: zero-initialised, so `id = 0` and `cur_dir = 0`. -/
def sentinel : BandData := { id := 0, cur_dir := 0 }

/-- Method `GameData::in_progress`: `current != sequence.size()`. -/
def GameData.in_progress (d : GameData) : Bool :=
  d.current != d.sequence.length

/-! ## Haptic effects (BandInput.h:71-94) -/

/-- First loop of `bin4_effect`: strength bytes of pulses `i .. i + k - 1`. -/
def bin4_strength (val : Nat) (effect : Nat) (i : Nat) : Nat → Nat
  | 0 => effect
  | k + 1 =>
    bin4_strength val
      (effect ||| (((if (val >>> i) &&& 1 = 1 then 0x4b else 0x01) <<< (16 * i)) % 2 ^ 64))
      (i + 1) k

/-- Second loop of `bin4_effect`: delay bytes between pulses `i - 1` and `i`. -/
def bin4_delay (effect : Nat) (i : Nat) : Nat → Nat
  | 0 => effect
  | k + 1 => bin4_delay (effect ||| (((10 + 0x80) <<< (8 + 16 * (i - 1))) % 2 ^ 64)) (i + 1) k

/-- Function `VibeAction::bin4_effect(val, n)` on 64-bit words. -/
def bin4_effect (val : Nat) (n : Nat) : Nat :=
  let n := if n > 4 then 4 else n
  bin4_delay (bin4_strength val 0 0 n) 1 (n - 1)

/-- Function `VibeAction::dd5_effect(v)`. -/
def dd5_effect (v : Int) : Nat :=
  if v = -2 then bin4_effect 3 2
  else if v = -1 then bin4_effect 1 2
  else if v = 0 then 0x37
  else if v = 1 then bin4_effect 2 2
  else if v = 2 then bin4_effect 0 2
  else 0

/-- The effect word chosen by `signal_band(id, ok)`. -/
def signal_effect (ok : Bool) : Nat :=
  if ok then bin4_effect 0 1 else dd5_effect 0

/-! ## Judging (SequenceGame.cpp:232-291) -/

/-- Method `GameData::test_sequence`: compares `sequence[current]` with `(id, dir)`. -/
def GameData.test_sequence (d : GameData) (id : Nat) (dir : Dir) :
    Except Fault (Bool × GameData) :=
  match d.sequence[d.current]? with
  | none => .error Fault.outOfBounds
  | some e =>
    if e = (id, dir) then
      let c := d.current + 1
      .ok (true, { d with current := c,
                          listening := if c = d.sequence.length then false else d.listening })
    else
      .ok (false, { d with missed := d.missed + 1 })

/-- Inner loop of the flush: judges the observations of one bucket in order and
records each band's latest outcome in the `signal` map. -/
def judge_bucket : List (Nat × Dir) → GameData → List (Nat × Bool) →
    Except Fault (GameData × List (Nat × Bool))
  | [], d, signal => .ok (d, signal)
  | (id, dir) :: rest, d, signal =>
    match d.test_sequence id dir with
    | .error f => .error f
    | .ok (b, d') => judge_bucket rest d' (mapSet id b signal)

/-- Outer loop of the flush,
`while (!backlog.empty() && backlog.begin()->first <= ts)`, run over the
buckets still queued; `test_sequence` does not touch the backlog, so the queue
is threaded as the recursion argument and stored back when the loop ends. -/
def flush (ts : ℚ) : List (ℚ × List (Nat × Dir)) → GameData → List (Nat × Bool) →
    Except Fault (GameData × List (Nat × Bool))
  | [], d, signal => .ok ({ d with backlog := [] }, signal)
  | (k, obs) :: rest, d, signal =>
    if k ≤ ts then
      match judge_bucket obs d signal with
      | .error f => .error f
      | .ok (d', signal') => flush ts rest d' signal'
    else
      .ok ({ d with backlog := (k, obs) :: rest }, signal)

/-- Call `std::min_element` with the comparison `a.second < b.second`: the first
entry whose value is smallest. -/
def min_element : List (Nat × ℚ) → Option (Nat × ℚ)
  | [] => none
  | x :: xs => some (xs.foldl (fun best y => if y.2 < best.2 then y else best) x)

/-- Method `GameData::advance_time`. The second component of the result lists the
haptic acknowledgments triggered, as `(band, effect)` in band order. -/
def GameData.advance_time (d : GameData) (id : Nat) (ts : ℚ) :
    Except Fault (GameData × List (Nat × Nat)) :=
  let d1 := { d with band_ts := mapSet id ts d.band_ts }
  if d1.listening = false then .ok (d1, [])
  else
    match min_element d1.band_ts with
    | none => .error Fault.outOfBounds
    | some m =>
      match flush m.2 d1.backlog d1 [] with
      | .error f => .error f
      | .ok (d2, signal) => .ok (d2, signal.map (fun s => (s.1, signal_effect s.2)))

/-- Method `GameData::push_direction_change`: `backlog[ts].emplace_back(id, dir)`
followed by `advance_time(id, ts)`. -/
def GameData.push_direction_change (d : GameData) (id : Nat) (ts : ℚ) (dir : Dir) :
    Except Fault (GameData × List (Nat × Nat)) :=
  let bucket := (mapFind ts d.backlog).getD []
  let d1 := { d with backlog := mapSet ts (bucket ++ [(id, dir)]) d.backlog }
  d1.advance_time id ts

/-! ## Round set-up (SequenceGame.cpp:83-92, 191-230) -/

/-- Method `GameData::clear`; `now` is the value read from the clock by `float_ts()`. -/
def GameData.clear (d : GameData) (now : ℚ) : GameData :=
  { d with sequence := [], backlog := [], current := 0, missed := 0,
           listening := false, start_ts := now }

/-- Method `SequenceGame::band`: the band registered under `id`, else the sentinel. -/
def band (bands : List (Nat × BandData)) (id : Nat) : BandData :=
  (mapFind id bands).getD sentinel

/-- Result of `idgen(rd)` for `std::uniform_int_distribution<size_t> idgen(0, size - 1)`
with `size - 1` computed in `size_t`: a value of the range `[0, (size - 1) mod 2^64]`,
selected by the entropy `r`. Only the range of the distribution is modelled. -/
def idgen (size : Nat) (r : Nat) : Nat :=
  r % ((size + 2 ^ 64 - 1) % 2 ^ 64 + 1)

/-- Result of `dirgen(rd)` for `std::uniform_int_distribution<int> dirgen(DOWN, UP)`: a
value of the range `[DOWN, UP]`, selected by the entropy `r`. -/
def dirgen (r : Nat) : Dir :=
  DOWN + ((r % 5 : Nat) : Int)

/-- Initial value of `prev` in `generate_sequence`: a value-initialised pair whose
first component is then set to `~0` as `unsigned`. -/
def prev_init : Nat × Dir := (2 ^ 32 - 1, 0)

/-- The rejection loop `for (;;)` that fills one slot of the sequence. Each round
consumes one pair of draws; the result is the accepted slot, the updated `seen_id`
and the draws left. Subscript `seen_id[ididx]` is in range whenever `ids[ididx]` is,
both vectors having the same size. -/
def draw_slot (bands : List (Nat × BandData)) (ids : List Nat) (prev : Nat × Dir)
    (seen_id : List Bool) :
    List (Nat × Nat) → Except Fault ((Nat × Dir) × List Bool × List (Nat × Nat))
  | [] => .error Fault.starved
  | (r1, r2) :: rest =>
    let ididx := idgen ids.length r1
    match ids[ididx]? with
    | none => .error Fault.outOfBounds
    | some id =>
      let sp : Nat × Dir := (id, dirgen r2)
      if sp = prev then draw_slot bands ids prev seen_id rest
      else if seen_id.getD ididx false = false then
        if sp.2 = (band bands sp.1).cur_dir then draw_slot bands ids prev seen_id rest
        else .ok (sp, seen_id.set ididx true, rest)
      else .ok (sp, seen_id, rest)

/-- The loop `for (auto& sp : sequence)` over `n` slots. -/
def fill_sequence (bands : List (Nat × BandData)) (ids : List Nat) :
    Nat → Nat × Dir → List Bool → List (Nat × Nat) → Except Fault (List (Nat × Dir))
  | 0, _, _, _ => .ok []
  | n + 1, prev, seen_id, draws =>
    match draw_slot bands ids prev seen_id draws with
    | .error f => .error f
    | .ok (sp, seen_id', rest) =>
      match fill_sequence bands ids n sp seen_id' rest with
      | .error f => .error f
      | .ok tl => .ok (sp :: tl)

/-- Method `GameData::generate_sequence(ids, n)`; `bands` is the band table of the
owning game, read through `game.band(id).cur_dir`, and `draws` the outcomes of the
entropy source in the order they are consumed. -/
def GameData.generate_sequence (d : GameData) (bands : List (Nat × BandData))
    (ids : List Nat) (n : Nat) (draws : List (Nat × Nat)) : Except Fault GameData :=
  match fill_sequence bands ids n prev_init (List.replicate ids.length false) draws with
  | .error f => .error f
  | .ok seq => .ok { d with sequence := seq }

/-! ## The game interface (SequenceGame.cpp:56-189) -/

/-- Method `SequenceGame::addBand`: `emplace` keeps an entry that already exists. The
constructor of `BandData` does not initialise `cur_dir`; its indeterminate value is
the parameter `garbage`. -/
def SequenceGame.addBand (g : SequenceGame) (id : Nat) (garbage : Dir) : SequenceGame :=
  match mapFind id g.bands with
  | some _ => g
  | none => { g with bands := mapSet id { id := id, cur_dir := garbage } g.bands }

/-- Method `SequenceGame::removeBand`: `bands.erase(id)`. -/
def SequenceGame.removeBand (g : SequenceGame) (id : Nat) : SequenceGame :=
  { g with bands := mapErase id g.bands }

/-- Method `SequenceGame::updateBandTime`, through `BandData::updateTime`. -/
def SequenceGame.updateBandTime (g : SequenceGame) (id : Nat) (ts : ℚ) :
    Except Fault (SequenceGame × List (Nat × Nat)) :=
  let bd := band g.bands id
  if bd.id = 0 then .ok (g, [])
  else
    match g.data.advance_time bd.id ts with
    | .error f => .error f
    | .ok (d, out) => .ok ({ g with data := d }, out)

/-- The constant `0.15f` of `updatePitch`: the binary32 value nearest to 0.15, which
is `10066330 / 2 ^ 26 = 0.150000005960464...`. -/
def pitch_tolerance : ℚ := 5033165 / 33554432

/-- Method `SequenceGame::updateBandPitch`, through `BandData::updatePitch`. The
constants `1.25f` and `2.0f` are the rationals `5/4` and `2`, the constant `0.15f` is
`pitch_tolerance`, and sum, product, quotient and difference are exact. Within a
bucket the difference `(vdir - 2.0f) / 2.0f - value` of two binary32 values is itself
a binary32 value; the rounding of the sum `value + 1.25f` cannot change the outcome
(see `pitch_bucket_stable`). -/
def SequenceGame.updateBandPitch (g : SequenceGame) (id : Nat) (ts value : ℚ) :
    Except Fault (SequenceGame × List (Nat × Nat)) :=
  let bd := band g.bands id
  if bd.id = 0 then .ok (g, [])
  else
    let vdir : Int := ⌊(value + 5 / 4) * 2⌋
    let diff : ℚ := ((vdir : ℚ) - 2) / 2 - value
    if |diff| > pitch_tolerance then .ok (g, [])
    else
      let dir : Dir := vdir + DOWN
      if dir = bd.cur_dir then .ok (g, [])
      else
        let g1 := { g with bands := mapSet id { bd with cur_dir := dir } g.bands }
        if g1.data.listening = true then
          match g1.data.push_direction_change bd.id ts dir with
          | .error f => .error f
          | .ok (d, out) => .ok ({ g1 with data := d }, out)
        else .ok (g1, [])

/-- Method `SequenceGame::start`, lines 83-92 and 132: the state it leaves behind.
The clock is read twice, in `clear` (`now1`) and for the countdown deadline (`now2`). -/
def SequenceGame.start (g : SequenceGame) (now1 now2 : ℚ) (draws : List (Nat × Nat)) :
    Except Fault SequenceGame :=
  if g.data.in_progress = true then .ok g
  else
    let d := g.data.clear now1
    let ids := g.bands.map (fun p => p.2.id)
    match d.generate_sequence g.bands ids (max 3 (ids.length * 2)) draws with
    | .error f => .error f
    | .ok d' => .ok { g with data := d', start_ts := now2 + d'.sequence.length + 1 }

/-- Method `SequenceGame::update`; `now` is the value read from the clock. -/
def SequenceGame.update (g : SequenceGame) (now : ℚ) : SequenceGame :=
  if g.start_ts ≠ 0 ∧ now ≥ g.start_ts then
    { g with data := { g.data with listening := true }, start_ts := 0 }
  else g

/-- One call of the public interface of `SequenceGame`, as made by the event
listener and the key handler of `AppDelegate.cpp:205-245`. -/
inductive Call where
  | addBand (id : Nat) (garbage : Dir)
  | removeBand (id : Nat)
  | updateBandPitch (id : Nat) (ts value : ℚ)
  | updateBandTime (id : Nat) (ts : ℚ)
  | start (now1 now2 : ℚ) (draws : List (Nat × Nat))
  | update (now : ℚ)

/-- Effect of one interface call on the game. -/
def SequenceGame.call (g : SequenceGame) : Call → Except Fault SequenceGame
  | .addBand id garbage => .ok (g.addBand id garbage)
  | .removeBand id => .ok (g.removeBand id)
  | .updateBandPitch id ts value => (g.updateBandPitch id ts value).map Prod.fst
  | .updateBandTime id ts => (g.updateBandTime id ts).map Prod.fst
  | .start now1 now2 draws => g.start now1 now2 draws
  | .update now => .ok (g.update now)

/-- A series of interface calls, stopping at the first fault. -/
def SequenceGame.run (g : SequenceGame) : List Call → Except Fault SequenceGame
  | [] => .ok g
  | c :: cs =>
    match g.call c with
    | .error f => .error f
    | .ok g' => g'.run cs

/-- One submission to `GameData`: a direction change or a bare timestamp. -/
inductive Submission where
  | change (id : Nat) (ts : ℚ) (dir : Dir)
  | heartbeat (id : Nat) (ts : ℚ)

/-- A series of submissions handed to `push_direction_change` and `advance_time`. -/
def GameData.feed (d : GameData) : List Submission → Except Fault GameData
  | [] => .ok d
  | .change id ts dir :: rest =>
    match d.push_direction_change id ts dir with
    | .error f => .error f
    | .ok (d', _) => d'.feed rest
  | .heartbeat id ts :: rest =>
    match d.advance_time id ts with
    | .error f => .error f
    | .ok (d', _) => d'.feed rest

/-! ## The event queue (BandInput.h:10-34, BandInput.cpp:223-249) -/

/-- Enumeration `EventData::Type`. -/
inductive EventType where
  | ADDED | REMOVED | RAW | PITCH
  deriving DecidableEq, Repr

/-- An `EventData` object or one of its derived classes. -/
inductive EventData where
  | base (type : EventType) (band_id : Nat) (detection_ts : ℚ)
  | rawValue (band_id : Nat) (detection_ts : ℚ) (ax ay az gx gy gz : ℚ)
  | pitchValue (band_id : Nat) (detection_ts : ℚ) (pitch : ℚ)
  deriving DecidableEq

/-- The queue `evq` of `BandInputImpl`, on the sequential model: every operation
runs to completion under `insys_lock`. -/
structure BandInputImpl where
  evq : List EventData
  deriving DecidableEq

/-- State after the constructor `BandInputImpl::BandInputImpl`: nothing queued. -/
def BandInputImpl.init : BandInputImpl := { evq := [] }

/-- Method `BandInputImpl::push_event`: `evq.emplace_back(std::move(ev))`. -/
def BandInputImpl.push_event (s : BandInputImpl) (ev : EventData) : BandInputImpl :=
  { s with evq := s.evq ++ [ev] }

/-- Method `BandInputImpl::checkEvents`: moves `evq` out, leaving it empty, and
dispatches the events taken in order. The dispatcher is the list of events it was
handed so far. -/
def BandInputImpl.checkEvents (s : BandInputImpl) (evdispatch : List EventData) :
    BandInputImpl × List EventData :=
  let q := s.evq
  ({ s with evq := [] }, q.foldl (fun disp gest => disp ++ [gest]) evdispatch)

/-! ## Haptic cues of a round (SequenceGame.cpp:94-130) -/

/-- One element of the action list `va` built by `start` for a band:
`DelayTime::create(delay)` or `VibeAction::create(band_id, effect)`. -/
inductive CueAction where
  | delay (units : Nat)
  | vibe (band_id : Nat) (effect : Nat)
  deriving DecidableEq, Repr

/-- The loop `for (size_t i = 0; i < data->sequence.size(); ++i)` of `start` for
one band, run over the slots from index `i` on; `last` is the index of the previous
slot of the band, initially `~(size_t)0`. The delay `i - last` is computed in
`size_t`. The result is the actions pushed and the final value of `last`. -/
def cue_loop (band_id : Nat) : List (Nat × Dir) → Nat → Nat → List CueAction × Nat
  | [], _, last => ([], last)
  | e :: rest, i, last =>
    if e.1 ≠ band_id then cue_loop band_id rest (i + 1) last
    else
      let effect := dd5_effect e.2
      let delay := (i + 2 ^ 64 - last) % 2 ^ 64
      let r := cue_loop band_id rest (i + 1) i
      (CueAction.delay delay :: CueAction.vibe band_id effect :: r.1, r.2)

/-- The body of the loop `for (auto& bdp : bands)` of `start` for one band: no action
(`nullptr`) when the band has no slot, else the cues of its slots followed by the
closing delay `sequence.size() - last`. -/
def band_vibes (sequence : List (Nat × Dir)) (band_id : Nat) : Option (List CueAction) :=
  let n := sequence.countP (fun p => decide (p.1 = band_id))
  if n = 0 then none
  else
    let r := cue_loop band_id sequence 0 (2 ^ 64 - 1)
    some (r.1 ++ [CueAction.delay ((sequence.length + 2 ^ 64 - r.2) % 2 ^ 64)])

/-- The vector `vibes` of `start`: for every registered band, in map order, the
action sequence run on the node of that band. -/
def SequenceGame.start_vibes (g : SequenceGame) : List (Nat × Option (List CueAction)) :=
  g.bands.map (fun bdp => (bdp.2.id, band_vibes g.data.sequence bdp.2.id))

/-- The moments at which the cues of a cocos2d `Sequence` fire, counted in whole
time units from the moment the sequence is started at `elapsed`: the actions run
one after the other, a `DelayTime` lasts its duration and a `VibeAction`, being an
instant action, fires when it is reached. Each item is `(time, band, effect)`. -/
def cue_times : Nat → List CueAction → List (Nat × Nat × Nat)
  | _, [] => []
  | elapsed, CueAction.delay units :: rest => cue_times (elapsed + units) rest
  | elapsed, CueAction.vibe band_id effect :: rest =>
    (elapsed, band_id, effect) :: cue_times elapsed rest

/-! ## Pitch buckets (SequenceGame.cpp:163-170) -/

/-- The direction computed by `updatePitch` from a pitch value:
`(Dir)((int)std::floor((value + 1.25f) * 2.0f) + DOWN)`. -/
def pitch_bucket (value : ℚ) : Dir :=
  ⌊(value + 5 / 4) * 2⌋ + DOWN

/-- The centre of the bucket of a direction: `-1, -0.5, 0, 0.5, 1` for `DOWN` to `UP`. -/
def bucket_centre (k : Dir) : ℚ :=
  (k : ℚ) / 2

/-- Byte `j` of a 64-bit word, byte 0 being the least significant. -/
def byte_of (w j : Nat) : Nat :=
  (w >>> (8 * j)) % 256

/-- The byte layout of a pulse train of `m` pulses: byte `2 i` is the strength of
pulse `i`, strong `0x4B` when bit `i` of `val` is set and weak `0x01` otherwise, byte
`2 i - 1` is the delay `0x8A` before pulse `i ≥ 1`, every other byte is 0. -/
def pulse_byte (val m j : Nat) : Nat :=
  if j % 2 = 0 then
    if j / 2 < m then (if val.testBit (j / 2) then 0x4B else 0x01) else 0
  else
    if (j + 1) / 2 < m then 0x8A else 0

/-! ## Vocabulary of the statements -/

/-- Representation invariant of a `std::map`: keys in strictly ascending order. -/
def SortedKeys {κ ν : Type} [LinearOrder κ] (m : List (κ × ν)) : Prop :=
  (m.map Prod.fst).Pairwise (· < ·)

/-- One step of a matched feed: the band of the expected entry reports the expected
direction at time `ts`; the bands listed in `pre` submit the bare timestamp `ts`
before that report and the bands listed in `post` after it. -/
structure FeedStep where
  entry : Nat × Dir
  ts : ℚ
  pre : List Nat
  post : List Nat

/-- The submissions of one step, in the order they are handed to the game data. -/
def FeedStep.submissions (s : FeedStep) : List Submission :=
  s.pre.map (fun o => Submission.heartbeat o s.ts) ++
    Submission.change s.entry.1 s.ts s.entry.2 ::
      s.post.map (fun o => Submission.heartbeat o s.ts)

/-- The submissions of a series of steps. -/
def matched_feed : List FeedStep → List Submission
  | [] => []
  | s :: rest => s.submissions ++ matched_feed rest

/-- Every band of `bands` takes part in the step: the reporting band is registered,
only registered bands submit timestamps, and each registered band other than the
reporting one submits the timestamp of the step. -/
def FeedStep.covers (bands : List Nat) (s : FeedStep) : Prop :=
  s.entry.1 ∈ bands ∧ (∀ o ∈ s.pre ++ s.post, o ∈ bands) ∧
    ∀ o ∈ bands, o ≠ s.entry.1 → o ∈ s.pre ++ s.post

/-- Invariant of the watermark table during a step at time `t`: a well-formed map
whose keys are registered bands and in which every band of `W`, the bands that have
already submitted in this step, stands at `t`. -/
def StepInv (bands : List Nat) (t : ℚ) (W : List Nat) (m : List (Nat × ℚ)) : Prop :=
  SortedKeys m ∧ ∀ e ∈ m, e.1 ∈ bands ∧ (e.1 ∈ W → e.2 = t)

/-- Round state between two steps: index `k`, no miss, nothing queued, listening
exactly while `k` is inside the sequence. -/
def Settled (seq : List (Nat × Dir)) (k : Nat) (d : GameData) : Prop :=
  d.sequence = seq ∧ d.current = k ∧ d.missed = 0 ∧ d.backlog = [] ∧
    d.listening = decide (k < seq.length)

/-- Round state inside a step whose report is queued but not yet judged: some
recorded watermark is still below the time of the step. -/
def Pending (seq : List (Nat × Dir)) (k : Nat) (e : Nat × Dir) (t : ℚ) (d : GameData) : Prop :=
  d.sequence = seq ∧ d.current = k ∧ d.missed = 0 ∧ d.backlog = [(t, [e])] ∧
    d.listening = true ∧ ∃ x ∈ d.band_ts, x.2 < t

instance instDecidableSortedKeys {κ ν : Type} [LinearOrder κ] (m : List (κ × ν)) :
    Decidable (SortedKeys m) :=
  inferInstanceAs (Decidable ((m.map Prod.fst).Pairwise (· < ·)))

instance instDecidableCovers (bands : List Nat) (s : FeedStep) : Decidable (s.covers bands) :=
  inferInstanceAs (Decidable (s.entry.1 ∈ bands ∧ (∀ o ∈ s.pre ++ s.post, o ∈ bands) ∧
    ∀ o ∈ bands, o ≠ s.entry.1 → o ∈ s.pre ++ s.post))

/-! ## Concrete scenarios -/

/-- Draws that make two bands `[7, 12]` at rest in `LEVEL` receive the target
`[(7, UP), (12, DOWN), (7, LEVEL), (12, HIGH)]`. -/
def draws_7_12 : List (Nat × Nat) := [(0, 4), (1, 0), (0, 2), (1, 3)]

/-- The target sequence of the two-band round. -/
def target_7_12 : List (Nat × Dir) := [(7, UP), (12, DOWN), (7, LEVEL), (12, HIGH)]

/-- A game data block outside a round whose only watermark is `5` for band 7. -/
def idle_with_watermark : GameData :=
  { sequence := [], backlog := [], band_ts := [(7, 5)], current := 0, missed := 0,
    start_ts := 0, listening := false }

/-- A listening round on `target_7_12` at index 0 with one queued bucket at key 3 and
watermarks `7 ↦ 2`, `12 ↦ 4`. -/
def listening_with_bucket : GameData :=
  { sequence := target_7_12, backlog := [(3, [(7, UP)])], band_ts := [(7, 2), (12, 4)],
    current := 0, missed := 0, start_ts := 0, listening := true }

/-- Bands 7 and 12 register, band 12 submits timestamp 1, a round starts and is
listening from time 8 on. -/
def calls_round_7_12 : List Call :=
  [.addBand 7 LEVEL, .addBand 12 LEVEL, .updateBandTime 12 1, .start 2 2 draws_7_12, .update 8]

/-- A complete round of the single band 7 on the target `[(7, UP), (7, DOWN), (7, UP)]`,
played without a miss; the last watermark recorded is `7 ↦ 12`. -/
def calls_solo_round : List Call :=
  [.addBand 7 LEVEL, .start 0 0 [(0, 4), (0, 0), (0, 4)], .update 4,
   .updateBandPitch 7 10 1, .updateBandPitch 7 11 (-1), .updateBandPitch 7 12 1]

/-- A game with bands 7 and 12 whose data block is `listening_with_bucket`. -/
def game_with_bucket : SequenceGame :=
  { bands := [(7, { id := 7, cur_dir := LEVEL }), (12, { id := 12, cur_dir := LEVEL })],
    data := listening_with_bucket, start_ts := 0 }

/-- A game with band 7 between two rounds: the watermark `7 ↦ 5` is recorded and no
round is in progress. -/
def game_idle : SequenceGame :=
  { bands := [(7, { id := 7, cur_dir := LEVEL })], data := idle_with_watermark, start_ts := 0 }

/-- The matched feed for `target_7_12`: each entry is reported by its band at times
10, 11, 12, 13 and the other band submits the same timestamp right after. -/
def steps_7_12 : List FeedStep :=
  [{ entry := (7, UP), ts := 10, pre := [], post := [12] },
   { entry := (12, DOWN), ts := 11, pre := [], post := [7] },
   { entry := (7, LEVEL), ts := 12, pre := [], post := [12] },
   { entry := (12, HIGH), ts := 13, pre := [], post := [7] }]

/-- A round on `target_7_12` that has just begun listening, with watermarks of both
bands recorded before the round. -/
def listening_fresh : GameData :=
  { sequence := target_7_12, backlog := [], band_ts := [(7, 3), (12, 4)], current := 0,
    missed := 0, start_ts := 2, listening := true }

/-- Band 5 registers, submits timestamp 1 and is removed; then bands 7 and 12
register, a round starts and is listening from time 8 on. -/
def calls_stale_round : List Call :=
  [.addBand 5 LEVEL, .updateBandTime 5 1, .removeBand 5, .addBand 7 LEVEL, .addBand 12 LEVEL,
   .start 2 2 draws_7_12, .update 8]

/-- A supply of `n` draws that always selects the first band and alternates between
the direction draws `a` and `b`. -/
def alternating_draws (a b : Nat) : Nat → List (Nat × Nat)
  | 0 => []
  | n + 1 => (0, a) :: alternating_draws b a n

/-- A supply of `n` draws accepted one after the other when the first band is at
rest in direction `c`: it starts with `UP` if `c` is `DOWN` and with `DOWN` otherwise,
and alternates with `LEVEL`. -/
def accepted_draws (c : Dir) (n : Nat) : List (Nat × Nat) :=
  alternating_draws (if c = DOWN then 4 else 0) 2 n

/-- The band table of bands 7 and 12, both at rest in `LEVEL`. -/
def bands_7_12 : List (Nat × BandData) :=
  [(7, { id := 7, cur_dir := LEVEL }), (12, { id := 12, cur_dir := LEVEL })]

/-- Draws for six slots over the bands `[7, 12]`, three of which are rejected: the
first repeats the live direction of band 7, the third and the seventh repeat the
slot before them. -/
def draws_six_slots : List (Nat × Nat) :=
  [(0, 2), (0, 4), (0, 4), (1, 0), (0, 2), (1, 3), (1, 3), (0, 0), (1, 1)]

/-- The sequence generated from `draws_six_slots`. -/
def target_six_slots : List (Nat × Dir) :=
  [(7, UP), (12, DOWN), (7, LEVEL), (12, HIGH), (7, DOWN), (12, LOW)]

/-- Bands 7 and 12 registered, no round played yet. -/
def game_two_bands : SequenceGame :=
  { bands := bands_7_12, data := GameData.init 0, start_ts := 0 }

/-- The game `game_two_bands` after `start` at time 2 with the draws `draws_7_12`. -/
def game_two_bands_started : SequenceGame :=
  { bands := bands_7_12,
    data := { sequence := target_7_12, backlog := [], band_ts := [], current := 0,
              missed := 0, start_ts := 2, listening := false },
    start_ts := 7 }

/-- The game `game_idle` after `start` at time 1 with three accepted draws. -/
def game_idle_started : SequenceGame :=
  { bands := [(7, { id := 7, cur_dir := LEVEL })],
    data := { sequence := [(7, UP), (7, DOWN), (7, UP)], backlog := [], band_ts := [(7, 5)],
              current := 0, missed := 0, start_ts := 1, listening := false },
    start_ts := 5 }

/-- Three events as the hardware thread appends them. -/
def three_events : List EventData :=
  [.base EventType.ADDED 7 1, .rawValue 7 2 0 0 1 0 0 0, .pitchValue 7 2 1]

/-- The round of `calls_round_7_12` played up to its last entry: the first three
entries are reported and judged; then band 12 reports the last expected entry
`HIGH` at time 13 and moves on to `UP` at time 14, while the watermark of band 7
still stands at 12. -/
def calls_before_overrun : List Call :=
  calls_round_7_12 ++
    [.updateBandPitch 7 10 1, .updateBandTime 12 10,
     .updateBandPitch 12 11 (-1), .updateBandTime 7 11,
     .updateBandPitch 7 12 0, .updateBandTime 12 12,
     .updateBandPitch 12 13 (1 / 2), .updateBandPitch 12 14 1]

/-- The game data reached by `calls_before_overrun`: index 3 of 4, two buckets queued. -/
def data_before_overrun : GameData :=
  { sequence := target_7_12, backlog := [(13, [(12, HIGH)]), (14, [(12, UP)])],
    band_ts := [(7, 12), (12, 14)], current := 3, missed := 0, start_ts := 2,
    listening := true }

/-- Draws for the bands `[7, 12]`, all accepted, that address `UP` to band 7 twice
with an entry of band 12 in between. -/
def draws_repeat : List (Nat × Nat) := [(0, 4), (1, 0), (0, 4), (1, 3)]

/-- The sequence generated from `draws_repeat`. -/
def target_repeat : List (Nat × Dir) := [(7, UP), (12, DOWN), (7, UP), (12, HIGH)]

/-- A round on `target_repeat` in which the first two entries are reported and
judged as matches. -/
def calls_repeat_round : List Call :=
  [.addBand 7 LEVEL, .addBand 12 LEVEL, .start 2 2 draws_repeat, .update 8,
   .updateBandPitch 7 10 1, .updateBandTime 12 10,
   .updateBandPitch 12 11 (-1), .updateBandTime 7 11]

/-- The binary32 value `0.35f`, the `float` nearest to 0.35; its distance from the
centre 0.5 of `HIGH` is exactly the binary32 value `0.15f`. -/
def pitch_0_35f : ℚ := 11744051 / 33554432

/-- A game whose only band is registered under the id 0. -/
def game_band_zero : SequenceGame :=
  { bands := [(0, { id := 0, cur_dir := LEVEL })], data := GameData.init 0, start_ts := 0 }

/-! ## Properties of the map operations -/

theorem mapFind_mapSet_self {κ ν : Type} [LinearOrder κ] (k : κ) (v : ν) (m : List (κ × ν)) :
    mapFind k (mapSet k v m) = some v := by
  induction m with
  | nil => simp [mapSet, mapFind]
  | cons hd tl ih =>
    obtain ⟨k', v'⟩ := hd
    unfold mapSet
    by_cases h1 : k < k'
    · simp [h1, mapFind]
    · by_cases h2 : k = k'
      · simp [h2, mapFind]
      · simp [h1, h2, mapFind, ih]

theorem mapFind_mapSet_ne {κ ν : Type} [LinearOrder κ] (k k' : κ) (v : ν) (m : List (κ × ν))
    (hne : k' ≠ k) : mapFind k' (mapSet k v m) = mapFind k' m := by
  induction m with
  | nil => simp [mapSet, mapFind, hne]
  | cons hd tl ih =>
    obtain ⟨k₀, v₀⟩ := hd
    unfold mapSet
    by_cases h1 : k < k₀
    · simp [h1, mapFind, hne]
    · by_cases h2 : k = k₀
      · subst h2
        simp [mapFind, hne]
      · simp only [h1, h2, if_false, mapFind, ih]

/-! ## Properties of judging -/

theorem test_sequence_frame (d d' : GameData) (id : Nat) (dir : Dir) (b : Bool)
    (h : d.test_sequence id dir = .ok (b, d')) :
    d'.band_ts = d.band_ts ∧ d'.backlog = d.backlog ∧ d'.sequence = d.sequence ∧
      d'.start_ts = d.start_ts ∧ d'.current + d'.missed = d.current + d.missed + 1 := by
  unfold GameData.test_sequence at h
  cases hs : d.sequence[d.current]? with
  | none => simp [hs] at h
  | some e =>
    simp only [hs] at h
    by_cases he : e = (id, dir)
    · simp only [he, if_true, Except.ok.injEq, Prod.mk.injEq] at h
      obtain ⟨-, rfl⟩ := h
      simp
      omega
    · simp only [he, if_false, Except.ok.injEq, Prod.mk.injEq] at h
      obtain ⟨-, rfl⟩ := h
      simp
      omega

theorem judge_bucket_frame (obs : List (Nat × Dir)) :
    ∀ (d d' : GameData) (signal signal' : List (Nat × Bool)),
      judge_bucket obs d signal = .ok (d', signal') →
      d'.band_ts = d.band_ts ∧ d'.backlog = d.backlog ∧ d'.sequence = d.sequence ∧
        d'.start_ts = d.start_ts ∧
        d'.current + d'.missed = d.current + d.missed + obs.length := by
  induction obs with
  | nil =>
    intro d d' signal signal' h
    simp only [judge_bucket, Except.ok.injEq, Prod.mk.injEq] at h
    obtain ⟨rfl, -⟩ := h
    simp
  | cons hd tl ih =>
    intro d d' signal signal' h
    obtain ⟨id, dir⟩ := hd
    unfold judge_bucket at h
    cases ht : d.test_sequence id dir with
    | error f => simp [ht] at h
    | ok r =>
      obtain ⟨b, d₁⟩ := r
      simp only [ht] at h
      obtain ⟨h1, h2, h3, h4, h5⟩ := ih d₁ d' _ _ h
      obtain ⟨t1, t2, t3, t4, t5⟩ := test_sequence_frame d d₁ id dir b ht
      refine ⟨h1.trans t1, h2.trans t2, h3.trans t3, h4.trans t4, ?_⟩
      simp only [List.length_cons]
      omega

/-- The flush removes a run of buckets from the front of the queue, all with keys up
to the barrier, and calls `test_sequence` once per observation of that run. -/
theorem flush_spec (ts : ℚ) (bl : List (ℚ × List (Nat × Dir))) :
    ∀ (d d' : GameData) (signal signal' : List (Nat × Bool)),
      flush ts bl d signal = .ok (d', signal') →
      d'.band_ts = d.band_ts ∧ d'.sequence = d.sequence ∧ d'.start_ts = d.start_ts ∧
        ∃ judged : List (ℚ × List (Nat × Dir)),
          bl = judged ++ d'.backlog ∧ (∀ b ∈ judged, b.1 ≤ ts) ∧
            d'.current + d'.missed =
              d.current + d.missed + (judged.map (fun b => b.2.length)).sum := by
  induction bl with
  | nil =>
    intro d d' signal signal' h
    simp only [flush, Except.ok.injEq, Prod.mk.injEq] at h
    obtain ⟨rfl, -⟩ := h
    exact ⟨rfl, rfl, rfl, [], by simp, by simp, by simp⟩
  | cons hd tl ih =>
    intro d d' signal signal' h
    obtain ⟨k, obs⟩ := hd
    unfold flush at h
    by_cases hk : k ≤ ts
    · simp only [hk, if_true] at h
      cases hj : judge_bucket obs d signal with
      | error f => simp [hj] at h
      | ok r =>
        obtain ⟨d₁, s₁⟩ := r
        simp only [hj] at h
        obtain ⟨j1, -, j3, j4, j5⟩ := judge_bucket_frame obs d d₁ signal s₁ hj
        obtain ⟨f1, f2, f3, judged, f4, f5, f6⟩ := ih d₁ d' s₁ signal' h
        refine ⟨f1.trans j1, f2.trans j3, f3.trans j4, (k, obs) :: judged, ?_, ?_, ?_⟩
        · simp [← f4]
        · intro b hb
          rcases List.mem_cons.mp hb with rfl | hb
          · exact hk
          · exact f5 b hb
        · simp only [List.map_cons, List.sum_cons]
          omega
    · simp only [hk, if_false, Except.ok.injEq, Prod.mk.injEq] at h
      obtain ⟨rfl, -⟩ := h
      exact ⟨rfl, rfl, rfl, [], by simp, by simp, by simp⟩

theorem min_element_spec (m : List (Nat × ℚ)) (x : Nat × ℚ) (h : min_element m = some x) :
    x ∈ m ∧ ∀ e ∈ m, x.2 ≤ e.2 := by
  cases m with
  | nil => simp [min_element] at h
  | cons a tl =>
    simp only [min_element, Option.some.injEq] at h
    subst h
    induction tl generalizing a with
    | nil => simp
    | cons b tl ih =>
      simp only [List.foldl_cons]
      by_cases hb : b.2 < a.2
      · simp only [hb, if_true]
        obtain ⟨i1, i2⟩ := ih b
        refine ⟨?_, ?_⟩
        · rcases List.mem_cons.mp i1 with h | h
          · rw [h]; simp
          · exact List.mem_cons_of_mem _ (List.mem_cons_of_mem _ h)
        · intro e he
          rcases List.mem_cons.mp he with rfl | he
          · exact le_trans (i2 b (List.mem_cons_self _ _)) (le_of_lt hb)
          · exact i2 e he
      · simp only [hb, if_false]
        obtain ⟨i1, i2⟩ := ih a
        refine ⟨?_, ?_⟩
        · rcases List.mem_cons.mp i1 with h | h
          · rw [h]; simp
          · exact List.mem_cons_of_mem _ (List.mem_cons_of_mem _ h)
        · intro e he
          rcases List.mem_cons.mp he with rfl | he
          · exact i2 e (List.mem_cons_self _ _)
          · rcases List.mem_cons.mp he with rfl | he
            · exact le_trans (i2 a (List.mem_cons_self _ _)) (not_lt.mp hb)
            · exact i2 e (List.mem_cons_of_mem _ he)

/-- What a returning `advance_time` does: the watermark of `id` is overwritten, and
when listening a front run of buckets with keys up to the smallest recorded
watermark is judged and dropped. -/
theorem advance_time_spec (d : GameData) (id : Nat) (ts : ℚ) (r : GameData × List (Nat × Nat))
    (h : d.advance_time id ts = .ok r) :
    r.1.band_ts = mapSet id ts d.band_ts ∧ r.1.sequence = d.sequence ∧
      r.1.start_ts = d.start_ts ∧
      ∃ judged : List (ℚ × List (Nat × Dir)),
        d.backlog = judged ++ r.1.backlog ∧
          (∀ b ∈ judged, ∀ e ∈ r.1.band_ts, b.1 ≤ e.2) ∧
          (d.listening = false → judged = []) ∧
          r.1.current + r.1.missed =
            d.current + d.missed + (judged.map (fun b => b.2.length)).sum := by
  unfold GameData.advance_time at h
  by_cases hl : d.listening = false
  · simp only [hl, if_true, Except.ok.injEq] at h
    subst h
    exact ⟨rfl, rfl, rfl, [], by simp, by simp, by simp, by simp⟩
  · rw [if_neg hl] at h
    split at h
    · exact absurd h (by simp)
    · rename_i m hm
      split at h
      · exact absurd h (by simp)
      · rename_i d₂ sig hf
        simp only [Except.ok.injEq] at h
        subst h
        obtain ⟨f1, f2, f3, judged, f4, f5, f6⟩ := flush_spec _ _ _ _ _ _ hf
        obtain ⟨-, m2⟩ := min_element_spec _ _ hm
        refine ⟨f1, f2, f3, judged, f4, ?_, ?_, f6⟩
        · intro b hb e he
          rw [f1] at he
          exact le_trans (f5 b hb) (m2 e he)
        · intro hl'
          exact absurd hl' hl

theorem mapFind_mem {κ ν : Type} [DecidableEq κ] (k : κ) (v : ν) (m : List (κ × ν))
    (h : mapFind k m = some v) : (k, v) ∈ m := by
  induction m with
  | nil => simp [mapFind] at h
  | cons hd tl ih =>
    obtain ⟨k', v'⟩ := hd
    unfold mapFind at h
    by_cases hk : k = k'
    · simp only [hk, if_true, Option.some.injEq] at h
      simp [hk, h]
    · simp only [hk, if_false] at h
      exact List.mem_cons_of_mem _ (ih h)

/-! ## C1: watermarks -/

/-- C1, counterexample: band 7 submits timestamp 5 and then timestamp 3 through
`updateBandTime`; the recorded watermark goes from 5 down to 3. -/
theorem watermark_decreases_on_smaller_timestamp :
    ((SequenceGame.init 0).run [.addBand 7 LEVEL, .updateBandTime 7 5]).map
        (fun g => mapFind 7 g.data.band_ts) = .ok (some 5) ∧
    ((SequenceGame.init 0).run [.addBand 7 LEVEL, .updateBandTime 7 5, .updateBandTime 7 3]).map
        (fun g => mapFind 7 g.data.band_ts) = .ok (some 3) ∧
    (3 : ℚ) < 5 := by
  decide

/-- C1, as amended: a submission that reaches `advance_time`, directly, through
`push_direction_change` or through `updateBandTime` of a registered band, records
the submitted timestamp as the watermark of that band whatever the previous
watermark was, and leaves the watermark of every other band as it was; outside
Listening `advance_time` does nothing else. -/
theorem watermark_is_last_submission (d : GameData) (id : Nat) (ts : ℚ) :
    (∀ r, d.advance_time id ts = .ok r →
        mapFind id r.1.band_ts = some ts ∧
          ∀ id', id' ≠ id → mapFind id' r.1.band_ts = mapFind id' d.band_ts) ∧
    (∀ dir r, d.push_direction_change id ts dir = .ok r →
        mapFind id r.1.band_ts = some ts ∧
          ∀ id', id' ≠ id → mapFind id' r.1.band_ts = mapFind id' d.band_ts) ∧
    (∀ (g : SequenceGame) r, g.data = d → (band g.bands id).id = id → id ≠ 0 →
        g.updateBandTime id ts = .ok r →
        mapFind id r.1.data.band_ts = some ts ∧
          ∀ id', id' ≠ id → mapFind id' r.1.data.band_ts = mapFind id' d.band_ts) ∧
    (d.listening = false →
        d.advance_time id ts = .ok ({ d with band_ts := mapSet id ts d.band_ts }, [])) := by
  refine ⟨?_, ?_, ?_, ?_⟩
  · intro r h
    obtain ⟨hb, -⟩ := advance_time_spec d id ts r h
    rw [hb]
    exact ⟨mapFind_mapSet_self id ts _, fun id' hne => mapFind_mapSet_ne id id' ts _ hne⟩
  · intro dir r h
    unfold GameData.push_direction_change at h
    obtain ⟨hb, -⟩ := advance_time_spec _ id ts r h
    rw [hb]
    exact ⟨mapFind_mapSet_self id ts _, fun id' hne => mapFind_mapSet_ne id id' ts _ hne⟩
  · intro g r hg hid hne h
    unfold SequenceGame.updateBandTime at h
    simp only [hid, hne, if_false, hg] at h
    split at h
    · exact absurd h (by simp)
    · rename_i d' out hadv
      simp only [Except.ok.injEq] at h
      subst h
      obtain ⟨hb, -⟩ := advance_time_spec d id ts _ hadv
      show mapFind id d'.band_ts = some ts ∧ _
      simp only [] at hb
      rw [hb]
      exact ⟨mapFind_mapSet_self id ts _, fun id' hne' => mapFind_mapSet_ne id id' ts _ hne'⟩
  · intro hl
    simp [GameData.advance_time, hl]

/-- C1, witness: the watermark 5 of band 7 is overwritten by the submission of 3. -/
theorem watermark_is_last_submission_witness :
    mapFind 7 idle_with_watermark.band_ts = some 5 ∧
      mapFind 7 ({ idle_with_watermark with band_ts := [(7, 3)] } : GameData).band_ts = some 3 :=
  ⟨by decide,
   ((watermark_is_last_submission idle_with_watermark 7 3).1
      ({ idle_with_watermark with band_ts := [(7, 3)] }, []) (by decide)).1⟩

/-! ## C2: the flush barrier -/

/-- C2, counterexample: bands 7 and 12 are registered and a round on
`[(7, UP), (12, DOWN), (7, LEVEL), (12, HIGH)]` is listening; band 12 has never
submitted a timestamp. The first direction change of band 7, at timestamp 6, is
judged at once: the index moves to 1 and the backlog is empty. -/
theorem silent_band_does_not_stall :
    ((SequenceGame.init 0).run
        [.addBand 7 LEVEL, .addBand 12 LEVEL, .start 0 0 draws_7_12, .update 5]).map
        (fun g => (g.data.sequence, g.data.listening, g.data.current)) =
      .ok (target_7_12, true, 0) ∧
    ((SequenceGame.init 0).run
        [.addBand 7 LEVEL, .addBand 12 LEVEL, .start 0 0 draws_7_12, .update 5,
         .updateBandPitch 7 6 1]).map
        (fun g => (mapFind 12 g.bands, mapFind 12 g.data.band_ts)) =
      .ok (some { id := 12, cur_dir := LEVEL }, none) ∧
    ((SequenceGame.init 0).run
        [.addBand 7 LEVEL, .addBand 12 LEVEL, .start 0 0 draws_7_12, .update 5,
         .updateBandPitch 7 6 1]).map
        (fun g => (g.data.current, g.data.backlog)) = .ok (1, []) := by
  with_unfolding_all decide

/-- C2, as amended: the buckets judged by a returning `advance_time` form a run at the
front of the backlog, `test_sequence` is called once for each of their observations,
and the key of every judged bucket is at most every watermark recorded in the table
after the submission. Bands without an entry in the table set no barrier. -/
theorem flush_waits_for_recorded_watermarks (d : GameData) (id : Nat) (ts : ℚ)
    (r : GameData × List (Nat × Nat)) (h : d.advance_time id ts = .ok r) :
    ∃ judged : List (ℚ × List (Nat × Dir)),
      d.backlog = judged ++ r.1.backlog ∧
        (∀ b ∈ judged, ∀ e ∈ r.1.band_ts, b.1 ≤ e.2) ∧
        r.1.current + r.1.missed =
          d.current + d.missed + (judged.map (fun b => b.2.length)).sum := by
  obtain ⟨-, -, -, judged, h1, h2, -, h3⟩ := advance_time_spec d id ts r h
  exact ⟨judged, h1, h2, h3⟩

/-- C2, witness: with watermarks `7 ↦ 2` and `12 ↦ 4` and a bucket at key 3, band 7
submits 5; the smallest watermark is 4 and the bucket is judged. -/
theorem flush_waits_for_recorded_watermarks_witness :
    ∃ judged : List (ℚ × List (Nat × Dir)),
      listening_with_bucket.backlog = judged ++ [] ∧
        (∀ b ∈ judged, ∀ e ∈ [((7 : Nat), (5 : ℚ)), (12, 4)], b.1 ≤ e.2) ∧
        1 + 0 = listening_with_bucket.current + listening_with_bucket.missed +
          (judged.map (fun b => b.2.length)).sum :=
  flush_waits_for_recorded_watermarks listening_with_bucket 7 5
    ({ listening_with_bucket with backlog := [], band_ts := [(7, 5), (12, 4)], current := 1 },
      [(7, signal_effect true)]) (by decide)

/-! ## C3: removing a band -/

/-- C3, counterexample: band 12 submits timestamp 1 and is removed while the round
is listening. Band 7 then reports `UP` at timestamp 9 and a timestamp 100: the entry
`12 ↦ 1` is still in the watermark table and the bucket at key 9 is not judged. -/
theorem removed_band_still_holds_back_flush :
    ((SequenceGame.init 0).run
        (calls_round_7_12 ++ [.removeBand 12, .updateBandPitch 7 9 1, .updateBandTime 7 100])).map
        (fun g => (g.bands.map Prod.fst, g.data.listening, g.data.current)) =
      .ok ([7], true, 0) ∧
    ((SequenceGame.init 0).run
        (calls_round_7_12 ++ [.removeBand 12, .updateBandPitch 7 9 1, .updateBandTime 7 100])).map
        (fun g => g.data.band_ts) = .ok [(7, 100), (12, 1)] ∧
    ((SequenceGame.init 0).run
        (calls_round_7_12 ++ [.removeBand 12, .updateBandPitch 7 9 1, .updateBandTime 7 100])).map
        (fun g => g.data.backlog) = .ok [(9, [(7, UP)])] := by
  with_unfolding_all decide

/-- C3, as amended: `removeBand` erases the band from the table of registered bands
and changes nothing else, so the watermark table keeps the entry of the removed
band; when another band submits a timestamp afterwards that entry is still there,
and every bucket judged has a key at most the stale watermark. -/
theorem removeBand_keeps_watermark (g : SequenceGame) (id : Nat) :
    (g.removeBand id).bands = mapErase id g.bands ∧
    (g.removeBand id).data = g.data ∧
    (g.removeBand id).start_ts = g.start_ts ∧
    ∀ (w : ℚ) (id' : Nat) (ts : ℚ) (r : GameData × List (Nat × Nat)),
      mapFind id g.data.band_ts = some w → id' ≠ id →
      (g.removeBand id).data.advance_time id' ts = .ok r →
      mapFind id r.1.band_ts = some w ∧
        ∃ judged : List (ℚ × List (Nat × Dir)),
          g.data.backlog = judged ++ r.1.backlog ∧ ∀ b ∈ judged, b.1 ≤ w := by
  refine ⟨rfl, rfl, rfl, ?_⟩
  intro w id' ts r hw hne h
  have h' : g.data.advance_time id' ts = .ok r := h
  obtain ⟨hb, -, -, judged, h1, h2, -, -⟩ := advance_time_spec g.data id' ts r h'
  have hfind : mapFind id r.1.band_ts = some w := by
    rw [hb, mapFind_mapSet_ne id' id ts _ (Ne.symm hne)]
    exact hw
  refine ⟨hfind, judged, h1, ?_⟩
  intro b hb'
  exact h2 b hb' (id, w) (mapFind_mem id w _ hfind)

/-- C3, witness: band 12 with watermark 4 is removed; band 7 then submits 5 and the
bucket at key 3 is judged, its key being at most the stale watermark 4. -/
theorem removeBand_keeps_watermark_witness :
    mapFind 12 [((7 : Nat), (5 : ℚ)), (12, 4)] = some 4 ∧
      ∃ judged : List (ℚ × List (Nat × Dir)),
        game_with_bucket.data.backlog = judged ++ [] ∧ ∀ b ∈ judged, b.1 ≤ 4 :=
  (removeBand_keeps_watermark game_with_bucket 12).2.2.2 4 7 5
    ({ listening_with_bucket with backlog := [], band_ts := [(7, 5), (12, 4)], current := 1 },
      [(7, signal_effect true)]) (by decide) (by decide) (by decide)

/-! ## C4, C5: starting a round -/

theorem generate_sequence_frame (d d' : GameData) (bands : List (Nat × BandData))
    (ids : List Nat) (n : Nat) (draws : List (Nat × Nat))
    (h : d.generate_sequence bands ids n draws = .ok d') :
    ∃ seq, fill_sequence bands ids n prev_init (List.replicate ids.length false) draws = .ok seq ∧
      d' = { d with sequence := seq } := by
  unfold GameData.generate_sequence at h
  split at h
  · exact absurd h (by simp)
  · rename_i seq hseq
    simp only [Except.ok.injEq] at h
    exact ⟨seq, hseq, h.symm⟩

/-- An accepted `start` that returns leaves the data block of `clear` with the new
sequence filled in. -/
theorem start_accepted_spec (g g' : SequenceGame) (now1 now2 : ℚ) (draws : List (Nat × Nat))
    (hacc : g.data.in_progress = false) (h : g.start now1 now2 draws = .ok g') :
    ∃ seq,
      fill_sequence g.bands (g.bands.map (fun p => p.2.id))
          (max 3 ((g.bands.map (fun p => p.2.id)).length * 2)) prev_init
          (List.replicate (g.bands.map (fun p => p.2.id)).length false) draws = .ok seq ∧
        g' = { g with data := { g.data.clear now1 with sequence := seq },
                      start_ts := now2 + seq.length + 1 } := by
  unfold SequenceGame.start at h
  rw [if_neg (by simp [hacc])] at h
  simp only [] at h
  split at h
  · exact absurd h (by simp)
  · rename_i d' hd
    obtain ⟨seq, hs, rfl⟩ := generate_sequence_frame _ _ _ _ _ _ hd
    simp only [Except.ok.injEq] at h
    exact ⟨seq, hs, h.symm⟩

/-- C4, counterexample: band 7 plays a whole round, its last submission recording the
watermark `7 ↦ 12`; the round is finished, the next `start` is accepted and builds a
new target, and the watermark table still holds `7 ↦ 12`. -/
theorem start_keeps_old_watermarks :
    ((SequenceGame.init 0).run calls_solo_round).map
        (fun g => (g.data.current, g.data.sequence.length, g.data.listening)) =
      .ok (3, 3, false) ∧
    ((SequenceGame.init 0).run calls_solo_round).map (fun g => g.data.band_ts) =
      .ok [(7, 12)] ∧
    ((SequenceGame.init 0).run (calls_solo_round ++ [.start 20 20 [(0, 0), (0, 4), (0, 0)]])).map
        (fun g => (g.data.sequence, g.data.current)) = .ok ([(7, DOWN), (7, UP), (7, DOWN)], 0) ∧
    ((SequenceGame.init 0).run (calls_solo_round ++ [.start 20 20 [(0, 0), (0, 4), (0, 0)]])).map
        (fun g => g.data.band_ts) = .ok [(7, 12)] := by
  with_unfolding_all decide

/-- C4, as amended: `clear`, the first step of an accepted `start`, empties the
sequence and the backlog, zeroes the progress index and the miss count and leaves
Listening, and it does not touch the watermark table; after an accepted `start` that
returns, the backlog is empty, index and miss count are 0, the engine is not
listening and the watermark table is the one from before the call. -/
theorem start_resets_round_state (g : SequenceGame) (now1 now2 : ℚ)
    (draws : List (Nat × Nat)) :
    ((g.data.clear now1).sequence = [] ∧ (g.data.clear now1).backlog = [] ∧
      (g.data.clear now1).current = 0 ∧ (g.data.clear now1).missed = 0 ∧
      (g.data.clear now1).listening = false ∧
      (g.data.clear now1).band_ts = g.data.band_ts) ∧
    ∀ g', g.data.in_progress = false → g.start now1 now2 draws = .ok g' →
      g'.data.backlog = [] ∧ g'.data.current = 0 ∧ g'.data.missed = 0 ∧
        g'.data.listening = false ∧ g'.data.band_ts = g.data.band_ts := by
  refine ⟨⟨rfl, rfl, rfl, rfl, rfl, rfl⟩, ?_⟩
  intro g' hacc h
  obtain ⟨seq, -, rfl⟩ := start_accepted_spec g g' now1 now2 draws hacc h
  exact ⟨rfl, rfl, rfl, rfl, rfl⟩

/-- C4, witness: `start` on the idle game with watermark `7 ↦ 5`. -/
theorem start_resets_round_state_witness :
    game_idle.data.in_progress = false ∧
      game_idle.start 1 1 [(0, 4), (0, 0), (0, 4)] = .ok game_idle_started ∧
      game_idle_started.data.backlog = [] ∧ game_idle_started.data.current = 0 ∧
      game_idle_started.data.missed = 0 ∧ game_idle_started.data.listening = false ∧
      game_idle_started.data.band_ts = game_idle.data.band_ts :=
  ⟨by decide, by with_unfolding_all decide,
   (start_resets_round_state game_idle 1 1 [(0, 4), (0, 0), (0, 4)]).2 game_idle_started
     (by decide) (by with_unfolding_all decide)⟩

/-- C5: while a round is in progress, which is when `current` differs from the length
of the sequence, `start` returns the game exactly as it was, so sequence, backlog,
watermarks, index, miss count, listening flag and countdown deadline are unchanged;
a call of `start` that does anything else was made with no round in progress. -/
theorem start_noop_while_in_progress (g : SequenceGame) (now1 now2 : ℚ)
    (draws : List (Nat × Nat)) :
    (g.data.in_progress = true ↔ g.data.current ≠ g.data.sequence.length) ∧
    (g.data.in_progress = true → g.start now1 now2 draws = .ok g) ∧
    (g.start now1 now2 draws ≠ .ok g → g.data.in_progress = false) := by
  refine ⟨?_, ?_, ?_⟩
  · simp [GameData.in_progress]
  · intro h
    simp [SequenceGame.start, h]
  · intro h
    by_contra hp
    apply h
    simp only [Bool.not_eq_false] at hp
    simp [SequenceGame.start, hp]

/-- C5, witness: the listening round of `game_with_bucket` at index 0 of 4. -/
theorem start_noop_while_in_progress_witness :
    game_with_bucket.data.in_progress = true ∧
      game_with_bucket.start 50 50 draws_7_12 = .ok game_with_bucket :=
  ⟨by decide, (start_noop_while_in_progress game_with_bucket 50 50 draws_7_12).2.1 (by decide)⟩

/-! ## C6: matching one observation -/

/-- C6: with the progress index `i` inside the sequence, `test_sequence` returns; on
the expected entry it answers success, moves the index to `i + 1`, keeps the miss count
and clears the listening flag exactly when `i + 1` is the length of the sequence;
on any other pair it answers failure, adds one to the miss count and keeps index and
listening flag. No other field changes. -/
theorem test_sequence_is_matchStep (d : GameData) (id : Nat) (dir : Dir)
    (hi : d.current < d.sequence.length) :
    (d.sequence[d.current] = (id, dir) →
      d.test_sequence id dir =
        .ok (true, { d with current := d.current + 1,
                            listening := if d.current + 1 = d.sequence.length then false
                                         else d.listening })) ∧
    (d.sequence[d.current] ≠ (id, dir) →
      d.test_sequence id dir = .ok (false, { d with missed := d.missed + 1 })) := by
  have hget : d.sequence[d.current]? = some d.sequence[d.current] :=
    List.getElem?_eq_getElem hi
  refine ⟨?_, ?_⟩
  · intro h
    simp [GameData.test_sequence, hget, h]
  · intro h
    simp [GameData.test_sequence, hget, h]

/-- C6, witness: `(12, UP)` offered while `(7, UP)` is expected is a miss. -/
theorem test_sequence_is_matchStep_witness :
    listening_with_bucket.current < listening_with_bucket.sequence.length ∧
      listening_with_bucket.test_sequence 12 UP =
        .ok (false, { listening_with_bucket with missed := 1 }) :=
  ⟨by decide, (test_sequence_is_matchStep listening_with_bucket 12 UP (by decide)).2 (by decide)⟩

/-! ## C7: a matched feed -/

theorem feed_append (a b : List Submission) :
    ∀ d : GameData, d.feed (a ++ b) =
      match d.feed a with
      | .error f => .error f
      | .ok d' => d'.feed b := by
  induction a with
  | nil => intro d; simp [GameData.feed]
  | cons x xs ih =>
    intro d
    cases x with
    | change id ts dir =>
      simp only [List.cons_append, GameData.feed]
      cases d.push_direction_change id ts dir with
      | error f => simp
      | ok r => simp [ih]
    | heartbeat id ts =>
      simp only [List.cons_append, GameData.feed]
      cases d.advance_time id ts with
      | error f => simp
      | ok r => simp [ih]

theorem mapSet_ne_nil {κ ν : Type} [LinearOrder κ] (k : κ) (v : ν) (m : List (κ × ν)) :
    mapSet k v m ≠ [] := by
  cases m with
  | nil => simp [mapSet]
  | cons hd tl =>
    obtain ⟨k', v'⟩ := hd
    unfold mapSet
    split
    · simp
    · split <;> simp

theorem mem_mapSet {κ ν : Type} [LinearOrder κ] (k : κ) (v : ν) (m : List (κ × ν))
    (hs : SortedKeys m) (e : κ × ν) (he : e ∈ mapSet k v m) :
    e = (k, v) ∨ (e ∈ m ∧ e.1 ≠ k) := by
  induction m with
  | nil =>
    simp only [mapSet, List.mem_singleton] at he
    exact Or.inl he
  | cons hd tl ih =>
    obtain ⟨k', v'⟩ := hd
    simp only [SortedKeys, List.map_cons, List.pairwise_cons, List.mem_map, Prod.exists,
      exists_and_right, exists_eq_right, forall_exists_index] at hs
    obtain ⟨hhd, htl⟩ := hs
    unfold mapSet at he
    by_cases h1 : k < k'
    · simp only [h1, if_true, List.mem_cons] at he
      rcases he with he | he | he
      · exact Or.inl he
      · right
        subst he
        exact ⟨List.mem_cons_self _ _, ne_of_gt h1⟩
      · right
        exact ⟨List.mem_cons_of_mem _ he, ne_of_gt (lt_trans h1 (hhd e.1 e.2 he))⟩
    · by_cases h2 : k = k'
      · subst h2
        simp only [lt_self_iff_false, if_false, if_true, List.mem_cons] at he
        rcases he with he | he
        · exact Or.inl he
        · right
          exact ⟨List.mem_cons_of_mem _ he, ne_of_gt (hhd e.1 e.2 he)⟩
      · simp only [h1, h2, if_false, List.mem_cons] at he
        rcases he with he | he
        · right
          subst he
          exact ⟨List.mem_cons_self _ _, fun h => h2 h.symm⟩
        · rcases ih htl he with h | ⟨h, h'⟩
          · exact Or.inl h
          · exact Or.inr ⟨List.mem_cons_of_mem _ h, h'⟩

theorem mapSet_sorted {κ ν : Type} [LinearOrder κ] (k : κ) (v : ν) (m : List (κ × ν))
    (hs : SortedKeys m) : SortedKeys (mapSet k v m) := by
  induction m with
  | nil => simp [mapSet, SortedKeys]
  | cons hd tl ih =>
    obtain ⟨k', v'⟩ := hd
    have hs' := hs
    simp only [SortedKeys, List.map_cons, List.pairwise_cons, List.mem_map, Prod.exists,
      exists_and_right, exists_eq_right, forall_exists_index] at hs'
    obtain ⟨hhd, htl⟩ := hs'
    unfold mapSet
    by_cases h1 : k < k'
    · simp only [h1, if_true]
      simp only [SortedKeys, List.map_cons, List.pairwise_cons, List.mem_cons, List.mem_map,
        Prod.exists, exists_and_right, exists_eq_right, forall_exists_index, forall_eq_or_imp]
      refine ⟨⟨h1, ?_⟩, hhd, htl⟩
      intro a b hab
      exact lt_trans h1 (hhd a b hab)
    · by_cases h2 : k = k'
      · subst h2
        simp only [lt_self_iff_false, if_false, if_true]
        simp only [SortedKeys, List.map_cons, List.pairwise_cons, List.mem_map, Prod.exists,
          exists_and_right, exists_eq_right, forall_exists_index]
        exact ⟨hhd, htl⟩
      · simp only [h1, h2, if_false]
        have hlt : k' < k := lt_of_le_of_ne (not_lt.mp h1) (fun h => h2 h.symm)
        have ih' := ih htl
        simp only [SortedKeys, List.map_cons, List.pairwise_cons, List.mem_map, Prod.exists,
          exists_and_right, exists_eq_right, forall_exists_index]
        refine ⟨?_, ih'⟩
        intro a b hab
        rcases mem_mapSet k v tl htl (a, b) hab with h | ⟨h, -⟩
        · simp only [Prod.mk.injEq] at h
          rw [h.1]
          exact hlt
        · exact hhd a b h

theorem stepInv_mapSet (bands : List Nat) (t : ℚ) (W : List Nat) (m : List (Nat × ℚ))
    (o : Nat) (h : StepInv bands t W m) (ho : o ∈ bands) :
    StepInv bands t (o :: W) (mapSet o t m) := by
  obtain ⟨hs, hm⟩ := h
  refine ⟨mapSet_sorted o t m hs, ?_⟩
  intro e he
  rcases mem_mapSet o t m hs e he with rfl | ⟨he', hne⟩
  · exact ⟨ho, fun _ => rfl⟩
  · refine ⟨(hm e he').1, ?_⟩
    intro hw
    rcases List.mem_cons.mp hw with h | h
    · exact absurd h hne
    · exact (hm e he').2 h

theorem stepInv_mono (bands : List Nat) (t : ℚ) (W W' : List Nat) (m : List (Nat × ℚ))
    (h : StepInv bands t W m) (hsub : ∀ o ∈ W', o ∈ W) : StepInv bands t W' m :=
  ⟨h.1, fun e he => ⟨(h.2 e he).1, fun hw => (h.2 e he).2 (hsub _ hw)⟩⟩

theorem stepInv_restart (bands : List Nat) (t t' : ℚ) (W : List Nat) (m : List (Nat × ℚ))
    (h : StepInv bands t W m) : StepInv bands t' [] m :=
  ⟨h.1, fun e he => ⟨(h.2 e he).1, fun hw => absurd hw (List.not_mem_nil _)⟩⟩

theorem stepInv_all (bands : List Nat) (t : ℚ) (W : List Nat) (m : List (Nat × ℚ))
    (h : StepInv bands t W m) (hall : ∀ o ∈ bands, o ∈ W) : ∀ e ∈ m, e.2 = t :=
  fun e he => (h.2 e he).2 (hall _ (h.2 e he).1)

theorem min_element_isSome (m : List (Nat × ℚ)) (h : m ≠ []) :
    ∃ x, min_element m = some x := by
  cases m with
  | nil => exact absurd rfl h
  | cons a tl => exact ⟨_, rfl⟩

/-- With nothing queued `advance_time` only records the watermark. -/
theorem advance_time_nothing_queued (d : GameData) (o : Nat) (t : ℚ) (hb : d.backlog = []) :
    d.advance_time o t = .ok ({ d with band_ts := mapSet o t d.band_ts }, []) := by
  unfold GameData.advance_time
  by_cases hl : d.listening = false
  · simp [hl]
  · obtain ⟨x, hx⟩ := min_element_isSome (mapSet o t d.band_ts) (mapSet_ne_nil o t _)
    simp only [hl, if_false, hx, hb, flush, List.map_nil]
    cases d
    simp only [] at hb
    subst hb
    rfl

/-- With exactly one queued bucket that holds the expected entry, `advance_time`
either leaves it queued, some recorded watermark being below its key, or judges it
as a match. -/
theorem advance_time_one_bucket (d : GameData) (o : Nat) (t t' : ℚ) (e : Nat × Dir)
    (hl : d.listening = true) (hb : d.backlog = [(t, [e])])
    (he : d.sequence[d.current]? = some e) :
    ∃ d' out, d.advance_time o t' = .ok (d', out) ∧
      d'.band_ts = mapSet o t' d.band_ts ∧ d'.sequence = d.sequence ∧ d'.missed = d.missed ∧
      ((d'.backlog = [(t, [e])] ∧ d'.current = d.current ∧ d'.listening = true ∧
          ∃ x ∈ d'.band_ts, x.2 < t) ∨
        (d'.backlog = [] ∧ d'.current = d.current + 1 ∧
          d'.listening = decide (d.current + 1 < d.sequence.length))) := by
  obtain ⟨x, hx⟩ := min_element_isSome (mapSet o t' d.band_ts) (mapSet_ne_nil o t' _)
  obtain ⟨hxm, -⟩ := min_element_spec _ _ hx
  have hlt : d.current < d.sequence.length := by
    by_contra hge
    rw [List.getElem?_eq_none (not_lt.mp hge)] at he
    exact absurd he (by simp)
  by_cases hk : t ≤ x.2
  · have heq : d.advance_time o t' =
        .ok ({ d with band_ts := mapSet o t' d.band_ts, backlog := [],
                      current := d.current + 1,
                      listening := if d.current + 1 = d.sequence.length then false
                                   else d.listening },
             [(e.1, signal_effect true)]) := by
      simp [GameData.advance_time, hl, hx, hb, flush, hk, judge_bucket,
        GameData.test_sequence, he, mapSet]
    refine ⟨_, _, heq, rfl, rfl, rfl, Or.inr ⟨rfl, rfl, ?_⟩⟩
    simp only [hl]
    by_cases hc : d.current + 1 = d.sequence.length
    · simp [hc]
    · have : d.current + 1 < d.sequence.length := by omega
      simp [hc, this]
  · have heq : d.advance_time o t' =
        .ok ({ d with band_ts := mapSet o t' d.band_ts, backlog := [(t, [e])] }, []) := by
      simp [GameData.advance_time, hl, hx, hb, flush, hk]
    exact ⟨_, _, heq, rfl, rfl, rfl, Or.inl ⟨rfl, rfl, hl, x, hxm, not_le.mp hk⟩⟩

/-- Bare timestamps submitted between two steps only move watermarks. -/
theorem heartbeats_settled (bands : List Nat) (seq : List (Nat × Dir)) (k : Nat) (t : ℚ) :
    ∀ (hs W : List Nat) (d : GameData),
      Settled seq k d → StepInv bands t W d.band_ts → (∀ o ∈ hs, o ∈ bands) →
      ∃ d', d.feed (hs.map (fun o => Submission.heartbeat o t)) = .ok d' ∧
        Settled seq k d' ∧ StepInv bands t (hs ++ W) d'.band_ts := by
  intro hs
  induction hs with
  | nil =>
    intro W d hS hI _
    exact ⟨d, rfl, hS, hI⟩
  | cons o rest ih =>
    intro W d hS hI hmem
    obtain ⟨s1, s2, s3, s4, s5⟩ := hS
    have hadv := advance_time_nothing_queued d o t s4
    have hI' := stepInv_mapSet bands t W d.band_ts o hI (hmem o (List.mem_cons_self _ _))
    obtain ⟨d', hf, hS', hI''⟩ :=
      ih (o :: W) { d with band_ts := mapSet o t d.band_ts } ⟨s1, s2, s3, s4, s5⟩ hI'
        (fun x hx => hmem x (List.mem_cons_of_mem _ hx))
    refine ⟨d', ?_, hS', ?_⟩
    · simp only [List.map_cons, GameData.feed, hadv]
      exact hf
    · apply stepInv_mono bands t _ _ _ hI''
      intro x hx
      simp only [List.cons_append, List.mem_cons, List.mem_append] at hx ⊢
      tauto

/-- Bare timestamps submitted after the report of a step: the report stays queued
or has been judged as a match. -/
theorem heartbeats_after_report (bands : List Nat) (seq : List (Nat × Dir)) (k : Nat) (t : ℚ)
    (e : Nat × Dir) (hek : seq[k]? = some e) :
    ∀ (hs W : List Nat) (d : GameData),
      (Pending seq k e t d ∨ Settled seq (k + 1) d) → StepInv bands t W d.band_ts →
      (∀ o ∈ hs, o ∈ bands) →
      ∃ d', d.feed (hs.map (fun o => Submission.heartbeat o t)) = .ok d' ∧
        (Pending seq k e t d' ∨ Settled seq (k + 1) d') ∧
        StepInv bands t (hs ++ W) d'.band_ts := by
  intro hs
  induction hs with
  | nil =>
    intro W d hS hI _
    exact ⟨d, rfl, hS, hI⟩
  | cons o rest ih =>
    intro W d hS hI hmem
    have hI' := stepInv_mapSet bands t W d.band_ts o hI (hmem o (List.mem_cons_self _ _))
    have hrest : ∀ x ∈ rest, x ∈ bands := fun x hx => hmem x (List.mem_cons_of_mem _ hx)
    have hmono : ∀ (m : List (Nat × ℚ)), StepInv bands t (rest ++ o :: W) m →
        StepInv bands t (o :: rest ++ W) m := by
      intro m hm
      apply stepInv_mono bands t _ _ _ hm
      intro x hx
      simp only [List.cons_append, List.mem_cons, List.mem_append] at hx ⊢
      tauto
    rcases hS with hP | hS
    · obtain ⟨p1, p2, p3, p4, p5, -⟩ := hP
      have he' : d.sequence[d.current]? = some e := by rw [p1, p2]; exact hek
      obtain ⟨d₁, out, hadv, a1, a2, a3, a4⟩ := advance_time_one_bucket d o t t e p5 p4 he'
      have hst : Pending seq k e t d₁ ∨ Settled seq (k + 1) d₁ := by
        rcases a4 with ⟨b1, b2, b3, b4⟩ | ⟨b1, b2, b3⟩
        · exact Or.inl ⟨a2.trans p1, b2.trans p2, a3.trans p3, b1, b3, b4⟩
        · refine Or.inr ⟨a2.trans p1, by rw [b2, p2], a3.trans p3, b1, ?_⟩
          rw [b3, p1, p2]
      rw [← a1] at hI'
      obtain ⟨d', hf, hS', hI''⟩ := ih (o :: W) d₁ hst hI' hrest
      refine ⟨d', ?_, hS', hmono _ hI''⟩
      simp only [List.map_cons, GameData.feed, hadv]
      exact hf
    · obtain ⟨s1, s2, s3, s4, s5⟩ := hS
      have hadv := advance_time_nothing_queued d o t s4
      obtain ⟨d', hf, hS', hI''⟩ :=
        ih (o :: W) { d with band_ts := mapSet o t d.band_ts } (Or.inr ⟨s1, s2, s3, s4, s5⟩) hI'
          hrest
      refine ⟨d', ?_, hS', hmono _ hI''⟩
      simp only [List.map_cons, GameData.feed, hadv]
      exact hf

/-- One step of a matched feed takes the round from index `k` to index `k + 1`. -/
theorem matched_step_settles (bands : List Nat) (seq : List (Nat × Dir)) (k : Nat)
    (s : FeedStep) (d : GameData) (hk : seq[k]? = some s.entry) (hcov : s.covers bands)
    (hS : Settled seq k d) (hI : StepInv bands s.ts [] d.band_ts) :
    ∃ d', d.feed s.submissions = .ok d' ∧ Settled seq (k + 1) d' ∧
      ∀ t', StepInv bands t' [] d'.band_ts := by
  obtain ⟨c1, c2, c3⟩ := hcov
  have hlt : k < seq.length := by
    by_contra hge
    rw [List.getElem?_eq_none (not_lt.mp hge)] at hk
    exact absurd hk (by simp)
  -- the timestamps submitted before the report
  obtain ⟨d₁, hf₁, hS₁, hI₁⟩ := heartbeats_settled bands seq k s.ts s.pre [] d hS hI
    (fun o ho => c2 o (List.mem_append_left _ ho))
  obtain ⟨s1, s2, s3, s4, s5⟩ := hS₁
  -- the report
  have hpush : d₁.push_direction_change s.entry.1 s.ts s.entry.2 =
      ({ d₁ with backlog := [(s.ts, [s.entry])] } : GameData).advance_time s.entry.1 s.ts := by
    simp [GameData.push_direction_change, s4, mapFind, mapSet]
  have hl₁ : d₁.listening = true := by rw [s5]; simp [hlt]
  obtain ⟨d₂, out, hadv, a1, a2, a3, a4⟩ :=
    advance_time_one_bucket ({ d₁ with backlog := [(s.ts, [s.entry])] } : GameData)
      s.entry.1 s.ts s.ts s.entry hl₁ rfl (by simp only []; rw [s1, s2]; exact hk)
  have hst : Pending seq k s.entry s.ts d₂ ∨ Settled seq (k + 1) d₂ := by
    rcases a4 with ⟨b1, b2, b3, b4⟩ | ⟨b1, b2, b3⟩
    · exact Or.inl ⟨a2.trans s1, b2.trans s2, a3.trans s3, b1, b3, b4⟩
    · refine Or.inr ⟨a2.trans s1, by rw [b2]; simp [s2], a3.trans s3, b1, ?_⟩
      rw [b3]
      simp [s1, s2]
  have hI₂ : StepInv bands s.ts (s.entry.1 :: (s.pre ++ [])) d₂.band_ts := by
    rw [a1]
    exact stepInv_mapSet bands s.ts _ _ _ hI₁ c1
  -- the timestamps submitted after the report
  obtain ⟨d₃, hf₃, hS₃, hI₃⟩ :=
    heartbeats_after_report bands seq k s.ts s.entry hk s.post _ d₂ hst hI₂
      (fun o ho => c2 o (List.mem_append_right _ ho))
  have hall : ∀ e ∈ d₃.band_ts, e.2 = s.ts := by
    apply stepInv_all bands s.ts _ _ hI₃
    intro o ho
    by_cases hoe : o = s.entry.1
    · simp [hoe]
    · have := c3 o ho hoe
      simp only [List.mem_append] at this
      simp only [List.append_nil, List.mem_append, List.mem_cons]
      tauto
  refine ⟨d₃, ?_, ?_, fun t' => stepInv_restart bands s.ts t' _ _ hI₃⟩
  · unfold FeedStep.submissions
    rw [feed_append, hf₁]
    simp only [GameData.feed, hpush, hadv]
    exact hf₃
  · rcases hS₃ with hP | hS'
    · obtain ⟨-, -, -, -, -, x, hx, hxt⟩ := hP
      rw [hall x hx] at hxt
      exact absurd hxt (lt_irrefl _)
    · exact hS'

/-- A run of matched steps whose entries are the part of the sequence from index
`k` on takes the round from index `k` to index `k` plus the number of steps. -/
theorem matched_feed_settles (bands : List Nat) (seq : List (Nat × Dir)) :
    ∀ (steps : List FeedStep) (k : Nat) (d : GameData),
      (∃ a b, seq = a ++ steps.map FeedStep.entry ++ b ∧ a.length = k) →
      (∀ s ∈ steps, s.covers bands) → Settled seq k d →
      SortedKeys d.band_ts → (∀ e ∈ d.band_ts, e.1 ∈ bands) →
      ∃ d', d.feed (matched_feed steps) = .ok d' ∧ Settled seq (k + steps.length) d' := by
  intro steps
  induction steps with
  | nil =>
    intro k d _ _ hS _ _
    exact ⟨d, rfl, hS⟩
  | cons s rest ih =>
    intro k d hseq hcov hS hsort hkeys
    obtain ⟨a, b, hab, hlen⟩ := hseq
    have hk : seq[k]? = some s.entry := by
      rw [hab, ← hlen, List.map_cons, List.append_assoc, List.cons_append,
        List.getElem?_append_right (le_refl _)]
      simp
    have hI : StepInv bands s.ts [] d.band_ts :=
      ⟨hsort, fun e he => ⟨hkeys e he, fun hw => absurd hw (List.not_mem_nil _)⟩⟩
    obtain ⟨d₁, hf₁, hS₁, hI₁⟩ :=
      matched_step_settles bands seq k s d hk (hcov s (List.mem_cons_self _ _)) hS hI
    obtain ⟨d₂, hf₂, hS₂⟩ :=
      ih (k + 1) d₁ ⟨a ++ [s.entry], b, by simp [hab], by simp [hlen]⟩
        (fun x hx => hcov x (List.mem_cons_of_mem _ hx)) hS₁ (hI₁ 0).1
        (fun e he => ((hI₁ 0).2 e he).1)
    refine ⟨d₂, ?_, ?_⟩
    · simp only [matched_feed]
      rw [feed_append, hf₁]
      exact hf₂
    · have : k + (s :: rest).length = k + 1 + rest.length := by
        simp only [List.length_cons]; omega
      rw [this]
      exact hS₂

/-- C7, counterexample: band 5 was registered, submitted timestamp 1 and was removed
before the round of bands 7 and 12 on `[(7, UP), (12, DOWN), (7, LEVEL), (12, HIGH)]`.
The round is listening at index 0 with nothing queued; the expected entries are
then reported in order at times 10 to 13, the other band submitting each timestamp
too. The index stays 0 and the round keeps listening. -/
theorem matched_feed_stalls_on_stale_watermark :
    ((SequenceGame.init 0).run calls_stale_round).map
        (fun g => (g.bands.map Prod.fst, g.data.sequence)) = .ok ([7, 12], target_7_12) ∧
    ((SequenceGame.init 0).run calls_stale_round).map
        (fun g => (g.data.listening, g.data.current, g.data.missed)) = .ok (true, 0, 0) ∧
    ((SequenceGame.init 0).run calls_stale_round).map (fun g => g.data.backlog) = .ok [] ∧
    ((SequenceGame.init 0).run calls_stale_round).map (fun g => g.data.band_ts) =
      .ok [(5, 1)] ∧
    steps_7_12.map FeedStep.entry = target_7_12 ∧
    (∀ s ∈ steps_7_12, s.covers [7, 12]) ∧
    (steps_7_12.map FeedStep.ts).Pairwise (· < ·) ∧
    (((SequenceGame.init 0).run calls_stale_round).bind
        (fun g => g.data.feed (matched_feed steps_7_12))).map
        (fun d => (d.current, d.listening)) = .ok (0, true) := by
  with_unfolding_all decide

/-- C7, as amended: let the round be at the beginning of Listening (index 0, no miss,
nothing queued) on a target of length `L ≥ 1`, and let the watermark table be a
well-formed map with entries of registered bands only. Feed it, for each entry of
the target in order, the report of that entry by its band at some time, with every
other registered band submitting that same time before or after the report. Then
every submission returns, after `j` steps the index is `j` with no miss and nothing
queued, the round listening exactly while `j < L`; after all steps the index is `L`,
the miss count 0 and the round is no longer listening. The times of the steps need
not even increase. -/
theorem matched_feed_completes (bands : List Nat) (d : GameData) (steps : List FeedStep)
    (hl : d.listening = true) (hc : d.current = 0) (hm : d.missed = 0) (hb : d.backlog = [])
    (hne : d.sequence ≠ []) (hwf : SortedKeys d.band_ts)
    (hkeys : ∀ e ∈ d.band_ts, e.1 ∈ bands)
    (hseq : steps.map FeedStep.entry = d.sequence) (hcov : ∀ s ∈ steps, s.covers bands) :
    (∀ j, j ≤ steps.length →
      ∃ dj, d.feed (matched_feed (steps.take j)) = .ok dj ∧ dj.current = j ∧ dj.missed = 0 ∧
        dj.backlog = [] ∧ dj.sequence = d.sequence ∧
        dj.listening = decide (j < d.sequence.length)) ∧
    ∃ d', d.feed (matched_feed steps) = .ok d' ∧ d'.current = d.sequence.length ∧
      d'.missed = 0 ∧ d'.listening = false := by
  have hpos : 0 < d.sequence.length := List.length_pos.mpr hne
  have hS : Settled d.sequence 0 d := ⟨rfl, hc, hm, hb, by simp [hl, hpos]⟩
  have hsteps : ∀ j, j ≤ steps.length →
      ∃ dj, d.feed (matched_feed (steps.take j)) = .ok dj ∧ dj.current = j ∧ dj.missed = 0 ∧
        dj.backlog = [] ∧ dj.sequence = d.sequence ∧
        dj.listening = decide (j < d.sequence.length) := by
    intro j hj
    obtain ⟨dj, hf, s1, s2, s3, s4, s5⟩ :=
      matched_feed_settles bands d.sequence (steps.take j) 0 d
        ⟨[], d.sequence.drop j, by
          rw [List.map_take, hseq]
          simp, rfl⟩
        (fun s hs => hcov s (List.mem_of_mem_take hs)) hS hwf hkeys
    have hlen : (steps.take j).length = j := by simp [hj]
    rw [hlen, Nat.zero_add] at s2 s5
    exact ⟨dj, hf, s2, s3, s4, s1, s5⟩
  refine ⟨hsteps, ?_⟩
  obtain ⟨d', hf, h1, h2, -, -, h5⟩ := hsteps steps.length (le_refl _)
  have hL : steps.length = d.sequence.length := by rw [← hseq, List.length_map]
  rw [List.take_length] at hf
  refine ⟨d', hf, h1.trans hL, h2, ?_⟩
  rw [h5, hL]
  simp

/-- C7, witness: bands 7 and 12 on `[(7, UP), (12, DOWN), (7, LEVEL), (12, HIGH)]`; the
index goes from 0 to 4 with no miss and the round stops listening. -/
theorem matched_feed_completes_witness :
    ∃ d', listening_fresh.feed (matched_feed steps_7_12) = .ok d' ∧ d'.current = 4 ∧
      d'.missed = 0 ∧ d'.listening = false :=
  (matched_feed_completes [7, 12] listening_fresh steps_7_12 (by decide) (by decide)
    (by decide) (by decide) (by decide) (by decide) (by decide) (by decide) (by decide)).2

/-! ## C8, C9: the generated sequence -/

theorem dirgen_range (r : Nat) : DOWN ≤ dirgen r ∧ dirgen r ≤ UP := by
  show (-2 : Int) ≤ -2 + ((r % 5 : Nat) : Int) ∧ -2 + ((r % 5 : Nat) : Int) ≤ 2
  have : r % 5 < 5 := Nat.mod_lt _ (by decide)
  omega

/-- What an accepted slot looks like: it differs from the previous slot, its band
is `ids[ididx]` for the index drawn, its direction lies in the range of `dirgen`,
and if that index was not seen before, the direction differs from the live
direction of the band and the index is marked as seen. -/
theorem draw_slot_spec (bands : List (Nat × BandData)) (ids : List Nat) (prev : Nat × Dir)
    (seen_id : List Bool) :
    ∀ (draws : List (Nat × Nat)) (sp : Nat × Dir) (seen_id' : List Bool)
      (rest : List (Nat × Nat)),
      draw_slot bands ids prev seen_id draws = .ok (sp, seen_id', rest) →
      sp ≠ prev ∧ DOWN ≤ sp.2 ∧ sp.2 ≤ UP ∧
        ∃ ididx, ids[ididx]? = some sp.1 ∧
          ((seen_id.getD ididx false = false ∧ sp.2 ≠ (band bands sp.1).cur_dir ∧
              seen_id' = seen_id.set ididx true) ∨
            (seen_id.getD ididx false = true ∧ seen_id' = seen_id)) := by
  intro draws
  induction draws with
  | nil =>
    intro sp seen_id' rest h
    simp [draw_slot] at h
  | cons hd tl ih =>
    intro sp seen_id' rest h
    obtain ⟨r1, r2⟩ := hd
    unfold draw_slot at h
    simp only [] at h
    split at h
    · exact absurd h (by simp)
    · rename_i id hid
      by_cases h1 : (id, dirgen r2) = prev
      · rw [if_pos h1] at h
        exact ih sp seen_id' rest h
      · rw [if_neg h1] at h
        by_cases h2 : seen_id.getD (idgen ids.length r1) false = false
        · rw [if_pos h2] at h
          by_cases h3 : dirgen r2 = (band bands id).cur_dir
          · rw [if_pos h3] at h
            exact ih sp seen_id' rest h
          · rw [if_neg h3] at h
            simp only [Except.ok.injEq, Prod.mk.injEq] at h
            obtain ⟨rfl, rfl, -⟩ := h
            exact ⟨h1, (dirgen_range r2).1, (dirgen_range r2).2, _, hid,
              Or.inl ⟨h2, h3, rfl⟩⟩
        · rw [if_neg h2] at h
          simp only [Except.ok.injEq, Prod.mk.injEq] at h
          obtain ⟨rfl, rfl, -⟩ := h
          exact ⟨h1, (dirgen_range r2).1, (dirgen_range r2).2, _, hid,
            Or.inr ⟨by simpa using h2, rfl⟩⟩

/-- The loop over the slots: length, origin of the entries, no repetition of the
previous slot, and the first entry of a band not seen before differs from that
band's live direction. -/
theorem fill_sequence_spec (bands : List (Nat × BandData)) (ids : List Nat) :
    ∀ (n : Nat) (prev : Nat × Dir) (seen_id : List Bool) (draws : List (Nat × Nat))
      (seq : List (Nat × Dir)),
      fill_sequence bands ids n prev seen_id draws = .ok seq →
      seq.length = n ∧ (∀ e ∈ seq, e.1 ∈ ids ∧ DOWN ≤ e.2 ∧ e.2 ≤ UP) ∧
        List.Chain (fun a b => a ≠ b) prev seq ∧
        ∀ b e, seq.find? (fun x => decide (x.1 = b)) = some e →
          e.2 ≠ (band bands b).cur_dir ∨
            ∃ i, ids[i]? = some b ∧ seen_id.getD i false = true := by
  intro n
  induction n with
  | zero =>
    intro prev seen_id draws seq h
    simp only [fill_sequence, Except.ok.injEq] at h
    subst h
    simp
  | succ n ih =>
    intro prev seen_id draws seq h
    unfold fill_sequence at h
    split at h
    · exact absurd h (by simp)
    · rename_i sp seen_id' rest hslot
      split at h
      · exact absurd h (by simp)
      · rename_i tl htl
        simp only [Except.ok.injEq] at h
        subst h
        obtain ⟨h1, h2, h3, h4⟩ := ih sp seen_id' rest tl htl
        obtain ⟨s1, s2, s3, ididx, s4, s5⟩ := draw_slot_spec bands ids prev seen_id _ _ _ _ hslot
        refine ⟨by simp [h1], ?_, ?_, ?_⟩
        · intro e he
          rcases List.mem_cons.mp he with rfl | he
          · exact ⟨List.getElem?_mem s4, s2, s3⟩
          · exact h2 e he
        · exact List.Chain.cons (fun h => s1 h.symm) h3
        · intro b e hfind
          by_cases hb : sp.1 = b
          · simp only [List.find?_cons, hb, decide_True, Option.some.injEq] at hfind
            subst hfind
            rcases s5 with ⟨-, t2, -⟩ | ⟨t1, -⟩
            · left
              rw [← hb]
              exact t2
            · right
              exact ⟨ididx, by rw [← hb]; exact s4, t1⟩
          · simp only [List.find?_cons, hb, decide_False] at hfind
            rcases h4 b e hfind with h | ⟨i, hi1, hi2⟩
            · exact Or.inl h
            · right
              refine ⟨i, hi1, ?_⟩
              rcases s5 with ⟨-, -, t3⟩ | ⟨-, t3⟩
              · have hne : ididx ≠ i := by
                  intro heq
                  subst heq
                  rw [s4] at hi1
                  exact hb (Option.some.inj hi1)
                rw [t3] at hi2
                simpa [List.getD_eq_getElem?_getD, List.getElem?_set_ne hne] using hi2
              · rw [t3] at hi2
                exact hi2

theorem idgen_zero (size : Nat) : idgen size 0 = 0 := by
  unfold idgen
  exact Nat.zero_mod _

theorem draw_slot_seen (bands : List (Nat × BandData)) (id0 : Nat) (ids' : List Nat)
    (prev : Nat × Dir) (seen_id : List Bool) (a : Nat) (rest : List (Nat × Nat))
    (hseen : seen_id.getD 0 false = true) (hne : (id0, dirgen a) ≠ prev) :
    draw_slot bands (id0 :: ids') prev seen_id ((0, a) :: rest) =
      .ok ((id0, dirgen a), seen_id, rest) := by
  unfold draw_slot
  simp only [idgen_zero, List.getElem?_cons_zero]
  rw [if_neg hne, if_neg (by rw [hseen]; simp)]

theorem draw_slot_unseen (bands : List (Nat × BandData)) (id0 : Nat) (ids' : List Nat)
    (prev : Nat × Dir) (seen_id : List Bool) (a : Nat) (rest : List (Nat × Nat))
    (hseen : seen_id.getD 0 false = false) (hne : (id0, dirgen a) ≠ prev)
    (hdir : dirgen a ≠ (band bands id0).cur_dir) :
    draw_slot bands (id0 :: ids') prev seen_id ((0, a) :: rest) =
      .ok ((id0, dirgen a), seen_id.set 0 true, rest) := by
  unfold draw_slot
  simp only [idgen_zero, List.getElem?_cons_zero]
  rw [if_neg hne, if_pos hseen, if_neg hdir]

theorem fill_sequence_alternating (bands : List (Nat × BandData)) (id0 : Nat)
    (ids' : List Nat) :
    ∀ (n a b : Nat) (p : Dir) (seen_id : List Bool),
      seen_id.getD 0 false = true → dirgen a ≠ p → dirgen b ≠ dirgen a →
      ∃ seq, fill_sequence bands (id0 :: ids') n (id0, p) seen_id (alternating_draws a b n) =
        .ok seq := by
  intro n
  induction n with
  | zero =>
    intro a b p seen_id _ _ _
    exact ⟨[], rfl⟩
  | succ n ih =>
    intro a b p seen_id hseen hap hba
    obtain ⟨tl, htl⟩ := ih b a (dirgen a) seen_id hseen hba (fun h => hba h.symm)
    have hslot := draw_slot_seen bands id0 ids' (id0, p) seen_id a (alternating_draws b a n)
      hseen (by simp [hap])
    exact ⟨(id0, dirgen a) :: tl, by simp only [alternating_draws, fill_sequence, hslot, htl]⟩

theorem dirgen_values : dirgen 0 = -2 ∧ dirgen 2 = 0 ∧ dirgen 4 = 2 := by
  refine ⟨?_, ?_, ?_⟩ <;> rfl

/-- For a non-empty list of bands some supply of draws is accepted slot by slot. -/
theorem fill_sequence_accepted (bands : List (Nat × BandData)) (id0 : Nat) (ids' : List Nat)
    (n : Nat) :
    ∃ seq, fill_sequence bands (id0 :: ids') n prev_init
        (List.replicate (id0 :: ids').length false)
        (accepted_draws (band bands id0).cur_dir n) = .ok seq := by
  obtain ⟨h0, h2, h4⟩ := dirgen_values
  have hfresh : (List.replicate (id0 :: ids').length false).getD 0 false = false := by
    simp
  have hmarked : ((List.replicate (id0 :: ids').length false).set 0 true).getD 0 false =
      true := by
    simp
  cases n with
  | zero => exact ⟨[], rfl⟩
  | succ n =>
    by_cases hc : (band bands id0).cur_dir = DOWN
    · obtain ⟨tl, htl⟩ := fill_sequence_alternating bands id0 ids' n 2 4 (dirgen 4)
        _ hmarked (by rw [h2, h4]; decide) (by rw [h2, h4]; decide)
      have hslot := draw_slot_unseen bands id0 ids' prev_init _ 4 (alternating_draws 2 4 n)
        hfresh (by rw [h4]; simp [prev_init]) (by rw [h4, hc]; decide)
      exact ⟨(id0, dirgen 4) :: tl, by
        simp only [accepted_draws, hc, if_true, alternating_draws, fill_sequence, hslot, htl]⟩
    · obtain ⟨tl, htl⟩ := fill_sequence_alternating bands id0 ids' n 2 0 (dirgen 0)
        _ hmarked (by rw [h2, h0]; decide) (by rw [h2, h0]; decide)
      have hslot := draw_slot_unseen bands id0 ids' prev_init _ 0 (alternating_draws 2 0 n)
        hfresh (by rw [h0]; simp [prev_init]) (by rw [h0]; exact fun h => hc h.symm)
      exact ⟨(id0, dirgen 0) :: tl, by
        simp only [accepted_draws, hc, if_false, alternating_draws, fill_sequence, hslot, htl]⟩

/-- C8: whenever `generate_sequence` returns, no two consecutive entries of the
generated sequence are identical, and for every band the first entry addressed to
it has a direction different from the live direction `cur_dir` of that band at
generation time; for a non-empty list of bands there are draws on which it returns. -/
theorem generated_sequence_constraints (d : GameData) (bands : List (Nat × BandData))
    (ids : List Nat) (n : Nat) :
    (∀ draws d', d.generate_sequence bands ids n draws = .ok d' →
      List.Chain' (fun a b => a ≠ b) d'.sequence ∧
        ∀ b e, d'.sequence.find? (fun x => decide (x.1 = b)) = some e →
          e.2 ≠ (band bands b).cur_dir) ∧
    (ids ≠ [] → ∃ draws d', d.generate_sequence bands ids n draws = .ok d') := by
  refine ⟨?_, ?_⟩
  · intro draws d' h
    obtain ⟨seq, hseq, rfl⟩ := generate_sequence_frame d d' bands ids n draws h
    obtain ⟨-, -, h3, h4⟩ := fill_sequence_spec bands ids n _ _ _ _ hseq
    refine ⟨?_, ?_⟩
    · have : List.Chain' (fun a b => a ≠ b) (prev_init :: seq) := h3
      exact this.tail
    · intro b e hfind
      rcases h4 b e hfind with h | ⟨i, -, hi⟩
      · exact h
      · exfalso
        rw [List.getD_eq_getElem?_getD] at hi
        by_cases hlt : i < (List.replicate ids.length false).length
        · rw [List.getElem?_eq_getElem hlt] at hi
          simp at hi
        · rw [List.getElem?_eq_none (not_lt.mp hlt)] at hi
          simp at hi
  · intro hne
    cases ids with
    | nil => exact absurd rfl hne
    | cons id0 ids' =>
      obtain ⟨seq, hseq⟩ := fill_sequence_accepted bands id0 ids' n
      exact ⟨accepted_draws (band bands id0).cur_dir n, { d with sequence := seq }, by
        simp only [GameData.generate_sequence, hseq]⟩

/-- C8, witness: six slots for the bands 7 and 12, both at rest in `LEVEL`, with
three rejected draws on the way. -/
theorem generated_sequence_constraints_witness :
    List.Chain' (fun a b => a ≠ b) target_six_slots ∧
      ∀ b e, target_six_slots.find? (fun x => decide (x.1 = b)) = some e →
        e.2 ≠ (band bands_7_12 b).cur_dir :=
  (generated_sequence_constraints (GameData.init 0) bands_7_12 [7, 12] 6).1 draws_six_slots
    { GameData.init 0 with sequence := target_six_slots } (by decide)

theorem push_events_evq (evs : List EventData) :
    ∀ s : BandInputImpl, (evs.foldl BandInputImpl.push_event s).evq = s.evq ++ evs := by
  induction evs with
  | nil => intro s; simp
  | cons ev rest ih =>
    intro s
    simp only [List.foldl_cons, ih, BandInputImpl.push_event, List.append_assoc,
      List.singleton_append]

theorem dispatch_all (q : List EventData) :
    ∀ disp : List EventData, q.foldl (fun disp gest => disp ++ [gest]) disp = disp ++ q := by
  induction q with
  | nil => intro disp; simp
  | cons ev rest ih =>
    intro disp
    simp only [List.foldl_cons, ih, List.append_assoc, List.singleton_append]

/-- C10: on the sequential model of the queue, events appended with `push_event`
after a drain (or after construction) and before the next `checkEvents` are
dispatched by that call, each once and in the order they were appended; the call
leaves the queue empty, and a `checkEvents` that follows at once dispatches nothing.
From any state, one `checkEvents` dispatches what was queued followed by the events
appended since. -/
theorem checkEvents_fifo (s : BandInputImpl) (evs disp : List EventData) :
    ((evs.foldl BandInputImpl.push_event s).checkEvents disp).2 = disp ++ (s.evq ++ evs) ∧
    ((evs.foldl BandInputImpl.push_event s).checkEvents disp).1.evq = [] ∧
    (∀ disp0, ((evs.foldl BandInputImpl.push_event (s.checkEvents disp0).1).checkEvents disp).2 =
      disp ++ evs) ∧
    ((evs.foldl BandInputImpl.push_event BandInputImpl.init).checkEvents disp).2 = disp ++ evs ∧
    (∀ disp', (((evs.foldl BandInputImpl.push_event s).checkEvents disp).1.checkEvents disp').2 =
      disp') := by
  refine ⟨?_, rfl, ?_, ?_, ?_⟩
  · simp only [BandInputImpl.checkEvents, dispatch_all, push_events_evq]
  · intro disp0
    simp [BandInputImpl.checkEvents, dispatch_all, push_events_evq]
  · simp [BandInputImpl.checkEvents, dispatch_all, push_events_evq, BandInputImpl.init]
  · intro disp'
    simp [BandInputImpl.checkEvents]

/-! ## C13: pulse trains -/

theorem bit_of_low_nibble (val i : Nat) (hi : i < 4) :
    ((val % 16) >>> i) &&& 1 = (val >>> i) &&& 1 := by
  simp only [Nat.and_one_is_mod, Nat.shiftRight_eq_div_pow]
  have h4 : i = 0 ∨ i = 1 ∨ i = 2 ∨ i = 3 := by omega
  rcases h4 with rfl | rfl | rfl | rfl <;> omega

theorem bin4_strength_low_nibble (val : Nat) :
    ∀ (k effect i : Nat), i + k ≤ 4 →
      bin4_strength val effect i k = bin4_strength (val % 16) effect i k := by
  intro k
  induction k with
  | zero => intro effect i _; rfl
  | succ k ih =>
    intro effect i hik
    simp only [bin4_strength]
    rw [bit_of_low_nibble val i (by omega)]
    exact ih _ _ (by omega)

theorem bin4_effect_low_nibble (val n : Nat) :
    bin4_effect val n = bin4_effect (val % 16) (min n 4) := by
  unfold bin4_effect
  by_cases h : n > 4
  · have hmin : min n 4 = 4 := by omega
    simp only [h, if_true, hmin, gt_iff_lt, lt_self_iff_false, if_false]
    rw [bin4_strength_low_nibble val 4 0 0 (by omega)]
  · have hmin : min n 4 = n := by omega
    simp only [h, if_false, hmin]
    rw [bin4_strength_low_nibble val n 0 0 (by omega)]

theorem bin4_effect_bytes_small :
    ∀ (v : Fin 16) (m : Fin 5) (j : Fin 7),
      byte_of (bin4_effect v.val m.val) j.val = pulse_byte v.val m.val j.val := by
  decide

theorem bin4_effect_bound_small :
    ∀ (v : Fin 16) (m : Fin 5), bin4_effect v.val m.val < 2 ^ 56 := by
  decide

theorem bin4_effect_low_bits_small :
    ∀ (v v' : Fin 16) (m : Fin 5), v'.val % 2 ^ m.val = v.val % 2 ^ m.val →
      bin4_effect v'.val m.val = bin4_effect v.val m.val := by
  decide

theorem pulse_byte_low_nibble (val m j : Nat) (hm : m ≤ 4) :
    pulse_byte (val % 16) m j = pulse_byte val m j := by
  unfold pulse_byte
  by_cases hj : j % 2 = 0
  · simp only [hj, if_true]
    by_cases hlt : j / 2 < m
    · have h16 : (16 : Nat) = 2 ^ 4 := rfl
      have hbit : (val % 16).testBit (j / 2) = val.testBit (j / 2) := by
        rw [h16, Nat.testBit_mod_two_pow]
        have : j / 2 < 4 := by omega
        simp [this]
      simp only [hlt, if_true, hbit]
    · simp only [hlt, if_false]
  · simp only [hj, if_false]

/-- Every byte of `bin4_effect(val, n)` is the byte of the pulse train of
`min(n, 4)` pulses. -/
theorem bin4_effect_bytes (val n j : Nat) :
    byte_of (bin4_effect val n) j = pulse_byte val (min n 4) j := by
  have hv : val % 16 < 16 := Nat.mod_lt _ (by decide)
  have hm : min n 4 < 5 := by omega
  rw [bin4_effect_low_nibble, ← pulse_byte_low_nibble val (min n 4) j (by omega)]
  by_cases hj : j < 7
  · exact bin4_effect_bytes_small ⟨val % 16, hv⟩ ⟨min n 4, hm⟩ ⟨j, hj⟩
  · have hb := bin4_effect_bound_small ⟨val % 16, hv⟩ ⟨min n 4, hm⟩
    simp only [] at hb
    have hzero : byte_of (bin4_effect (val % 16) (min n 4)) j = 0 := by
      unfold byte_of
      rw [Nat.shiftRight_eq_div_pow]
      have hpow : 2 ^ 56 ≤ 2 ^ (8 * j) := Nat.pow_le_pow_right (by decide) (by omega)
      rw [Nat.div_eq_of_lt (lt_of_lt_of_le hb hpow)]
    rw [hzero]
    unfold pulse_byte
    by_cases h2 : j % 2 = 0
    · have : ¬ j / 2 < min n 4 := by omega
      simp [h2, this]
    · have : ¬ (j + 1) / 2 < min n 4 := by omega
      simp [h2, this]

/-- C13: `bin4_effect(val, n)` packs `m = min(n, 4)` pulses into the word: byte
`2 i` is `0x4B` if bit `i` of `val` is set and `0x01` otherwise for `i < m`, byte
`2 i - 1` is the delay byte `0x8A` for `1 ≤ i < m`, and every other byte is 0; so the
word depends on the low `m` bits of `val` only, `bin4_effect(val, 0) = 0`, and every
`n > 4` gives the word of `n = 4`. -/
theorem bin4_effect_packs_pulses (val n : Nat) :
    (∀ i, i < min n 4 →
      byte_of (bin4_effect val n) (2 * i) = if val.testBit i then 0x4B else 0x01) ∧
    (∀ i, 1 ≤ i → i < min n 4 → byte_of (bin4_effect val n) (2 * i - 1) = 0x8A) ∧
    (∀ j, (∀ i, i < min n 4 → j ≠ 2 * i) → (∀ i, 1 ≤ i → i < min n 4 → j ≠ 2 * i - 1) →
      byte_of (bin4_effect val n) j = 0) ∧
    (∀ val', val' % 2 ^ min n 4 = val % 2 ^ min n 4 → bin4_effect val' n = bin4_effect val n) ∧
    bin4_effect val 0 = 0 ∧
    (n > 4 → bin4_effect val n = bin4_effect val 4) := by
  refine ⟨?_, ?_, ?_, ?_, rfl, ?_⟩
  · intro i hi
    rw [bin4_effect_bytes]
    unfold pulse_byte
    have h1 : 2 * i % 2 = 0 := by omega
    have h2 : 2 * i / 2 = i := by omega
    simp only [h1, h2, hi, if_true]
  · intro i h1 hi
    rw [bin4_effect_bytes]
    unfold pulse_byte
    have h2 : ¬ (2 * i - 1) % 2 = 0 := by omega
    have h3 : (2 * i - 1 + 1) / 2 = i := by omega
    simp only [h2, h3, hi, if_true, if_false]
  · intro j hev hodd
    rw [bin4_effect_bytes]
    unfold pulse_byte
    by_cases h2 : j % 2 = 0
    · have : ¬ j / 2 < min n 4 := fun h => hev (j / 2) h (by omega)
      simp only [h2, this, if_true, if_false]
    · have : ¬ (j + 1) / 2 < min n 4 := fun h => hodd ((j + 1) / 2) (by omega) h (by omega)
      simp only [h2, this, if_false]
  · intro val' hval
    have hm : min n 4 < 5 := by omega
    have hv : val % 16 < 16 := Nat.mod_lt _ (by decide)
    have hv' : val' % 16 < 16 := Nat.mod_lt _ (by decide)
    rw [bin4_effect_low_nibble val' n, bin4_effect_low_nibble val n]
    refine bin4_effect_low_bits_small ⟨val % 16, hv⟩ ⟨val' % 16, hv'⟩ ⟨min n 4, hm⟩ ?_
    show val' % 16 % 2 ^ min n 4 = val % 16 % 2 ^ min n 4
    have hdvd : 2 ^ min n 4 ∣ 16 := by
      have h16 : (16 : Nat) = 2 ^ 4 := rfl
      rw [h16]
      exact Nat.pow_dvd_pow 2 (by omega)
    rw [Nat.mod_mod_of_dvd _ hdvd, Nat.mod_mod_of_dvd _ hdvd, hval]
  · intro h
    rw [bin4_effect_low_nibble val n, bin4_effect_low_nibble val 4]
    have h1 : min n 4 = 4 := by omega
    have h2 : min 4 4 = 4 := rfl
    rw [h1, h2]

/-- C13, witness: `bin4_effect(3, 2)`, the pattern of `DOWN`, is the word `0x4B8A4B`:
two strong pulses with the delay byte between them. -/
theorem bin4_effect_packs_pulses_witness :
    bin4_effect 3 2 = 0x4B8A4B ∧
      byte_of (bin4_effect 3 2) (2 * 1) = (if Nat.testBit 3 1 then 0x4B else 0x01) ∧
      byte_of (bin4_effect 3 2) (2 * 1 - 1) = 0x8A ∧
      bin4_effect 7 2 = bin4_effect 3 2 ∧ bin4_effect 3 9 = bin4_effect 3 4 :=
  ⟨by decide, (bin4_effect_packs_pulses 3 2).1 1 (by decide),
   (bin4_effect_packs_pulses 3 2).2.1 1 (by decide) (by decide),
   (bin4_effect_packs_pulses 3 2).2.2.2.1 7 (by decide),
   (bin4_effect_packs_pulses 3 9).2.2.2.2.2 (by decide)⟩

/-! ## C12: the cues of a round -/

theorem cue_times_append_delay (units : Nat) :
    ∀ (acts : List CueAction) (elapsed : Nat),
      cue_times elapsed (acts ++ [CueAction.delay units]) = cue_times elapsed acts := by
  intro acts
  induction acts with
  | nil => intro elapsed; simp [cue_times]
  | cons a rest ih =>
    intro elapsed
    cases a with
    | delay u =>
      show cue_times (elapsed + u) (rest ++ [CueAction.delay units]) = _
      rw [ih]
      rfl
    | vibe b e =>
      show (elapsed, b, e) :: cue_times elapsed (rest ++ [CueAction.delay units]) = _
      rw [ih]
      rfl

/-- The cues pushed by the loop for the slots from index `i` on fire one time unit
after the index of their slot. -/
theorem cue_loop_times (band_id : Nat) :
    ∀ (rest : List (Nat × Dir)) (i last : Nat),
      (last = 2 ^ 64 - 1 ∨ last < i) → i + rest.length < 2 ^ 64 →
      cue_times ((last + 1) % 2 ^ 64) (cue_loop band_id rest i last).1 =
        ((rest.enumFrom i).filter (fun p => decide (p.2.1 = band_id))).map
          (fun p => (p.1 + 1, band_id, dd5_effect p.2.2)) := by
  intro rest
  induction rest with
  | nil => intro i last _ _; simp [cue_loop, cue_times]
  | cons e rest ih =>
    intro i last hlast hlen
    simp only [List.length_cons] at hlen
    by_cases he : e.1 = band_id
    · have hstep : (last + 1) % 2 ^ 64 + (i + 2 ^ 64 - last) % 2 ^ 64 = i + 1 := by
        rcases hlast with h | h
        · subst h
          omega
        · omega
      have hnext : (i + 1) % 2 ^ 64 = i + 1 := Nat.mod_eq_of_lt (by omega)
      have ih' := ih (i + 1) i (Or.inr (Nat.lt_succ_self i)) (by omega)
      rw [hnext] at ih'
      simp only [cue_loop, he, ne_eq, not_true_eq_false, if_false, cue_times, hstep,
        List.enumFrom_cons, List.filter_cons, decide_True, if_true, List.map_cons, ih']
    · have ih' := ih (i + 1) last (by omega) (by omega)
      simp only [cue_loop, he, ne_eq, not_false_eq_true, if_true, List.enumFrom_cons,
        List.filter_cons, decide_False, ih']
      simp

/-- The schedule of one band: absent exactly when the band has no slot, and else
its cues are those of the band's slots, in order, each one time unit after the
index of its slot. -/
theorem band_vibes_times (sequence : List (Nat × Dir)) (band_id : Nat)
    (hlen : sequence.length < 2 ^ 64) :
    (band_vibes sequence band_id = none ↔ ∀ e ∈ sequence, e.1 ≠ band_id) ∧
    ∀ acts, band_vibes sequence band_id = some acts →
      cue_times 0 acts =
        ((sequence.enum.filter (fun p => decide (p.2.1 = band_id))).map
          (fun p => (p.1 + 1, band_id, dd5_effect p.2.2))) := by
  refine ⟨?_, ?_⟩
  · unfold band_vibes
    by_cases hn : sequence.countP (fun p => decide (p.1 = band_id)) = 0
    · simp only [hn, if_true, true_iff]
      intro e he
      have := List.countP_eq_zero.mp hn e he
      simpa using this
    · simp only [hn, if_false]
      constructor
      · intro hsome
        exact absurd hsome (by simp)
      · intro hall
        exfalso
        apply hn
        apply List.countP_eq_zero.mpr
        intro e he
        simpa using hall e he
  · intro acts h
    unfold band_vibes at h
    by_cases hn : sequence.countP (fun p => decide (p.1 = band_id)) = 0
    · simp [hn] at h
    · simp only [hn, if_false, Option.some.injEq] at h
      subst h
      rw [cue_times_append_delay]
      have h0 : (0 : Nat) = (2 ^ 64 - 1 + 1) % 2 ^ 64 := by decide
      rw [h0]
      exact cue_loop_times band_id sequence 0 (2 ^ 64 - 1) (Or.inl rfl) (by omega)

/-- C12, counterexample: for the target `[(7, UP), (12, DOWN), (7, LEVEL), (12, HIGH)]`
the actions of band 7 are a delay of 1, the cue of slot 0, a delay of 2, the cue of
slot 2 and a closing delay of 2: the cue of the slot at index 0 fires after one time
unit, not at time 0. -/
theorem first_cue_fires_after_one_unit :
    (SequenceGame.init 0).run [.addBand 7 LEVEL, .addBand 12 LEVEL, .start 2 2 draws_7_12] =
      .ok game_two_bands_started ∧
    game_two_bands_started.data.sequence = target_7_12 ∧
    target_7_12[0]? = some (7, UP) ∧
    game_two_bands_started.start_vibes =
      [(7, some [.delay 1, .vibe 7 (dd5_effect UP), .delay 2, .vibe 7 (dd5_effect LEVEL),
                 .delay 2]),
       (12, some [.delay 2, .vibe 12 (dd5_effect DOWN), .delay 2,
                  .vibe 12 (dd5_effect HIGH), .delay 1])] ∧
    cue_times 0 [.delay 1, .vibe 7 (dd5_effect UP), .delay 2, .vibe 7 (dd5_effect LEVEL),
        .delay 2] = [(1, 7, dd5_effect UP), (3, 7, dd5_effect LEVEL)] ∧
    (0, 7, dd5_effect UP) ∉ cue_times 0 [.delay 1, .vibe 7 (dd5_effect UP), .delay 2,
        .vibe 7 (dd5_effect LEVEL), .delay 2] :=
  ⟨by with_unfolding_all decide, by decide, by decide, by decide, by decide, by decide⟩

/-- C12, as amended: after an accepted `start` that returns, every registered band
has one entry in `vibes`; the entry is empty exactly when no slot of the target is
addressed to the band, and else its cues are, in slot order, one cue per slot of
that band, addressed to the band and carrying `dd5_effect` of the direction of the
slot, the cue of the slot at index `i` firing `i + 1` whole time units after the
actions are run. The delays between them are differences of slot indices in
`size_t`, the first one taken from `~(size_t)0`. Band ids being distinct `unsigned`
values, fewer than `2 ^ 32` bands are registered. -/
theorem start_cues_follow_slots (g g' : SequenceGame) (now1 now2 : ℚ)
    (draws : List (Nat × Nat)) (hacc : g.data.in_progress = false)
    (hbands : g.bands.length < 2 ^ 32) (h : g.start now1 now2 draws = .ok g') :
    g'.start_vibes.map Prod.fst = g.bands.map (fun bdp => bdp.2.id) ∧
    (∀ entry ∈ g'.start_vibes,
      (entry.2 = none ↔ ∀ e ∈ g'.data.sequence, e.1 ≠ entry.1) ∧
      ∀ acts, entry.2 = some acts →
        cue_times 0 acts =
          ((g'.data.sequence.enum.filter (fun p => decide (p.2.1 = entry.1))).map
            (fun p => (p.1 + 1, entry.1, dd5_effect p.2.2)))) ∧
    ∀ i e, g'.data.sequence[i]? = some e →
      ∃ entry ∈ g'.start_vibes, entry.1 = e.1 ∧
        ∃ acts, entry.2 = some acts ∧ (i + 1, e.1, dd5_effect e.2) ∈ cue_times 0 acts := by
  obtain ⟨seq, hseq, rfl⟩ := start_accepted_spec g g' now1 now2 draws hacc h
  obtain ⟨hl, hmem, -, -⟩ := fill_sequence_spec _ _ _ _ _ _ _ hseq
  have hlen : seq.length < 2 ^ 64 := by
    rw [hl, List.length_map]
    have : (2 : Nat) ^ 32 = 4294967296 := by decide
    have h64 : (2 : Nat) ^ 64 = 18446744073709551616 := by decide
    omega
  refine ⟨?_, ?_, ?_⟩
  · simp [SequenceGame.start_vibes, List.map_map]
  · intro entry hentry
    simp only [SequenceGame.start_vibes, List.mem_map] at hentry
    obtain ⟨bdp, -, rfl⟩ := hentry
    exact band_vibes_times seq bdp.2.id hlen
  · intro i e hie
    have he : e ∈ seq := List.getElem?_mem hie
    obtain ⟨bdp, hbdp, hbid⟩ := List.mem_map.mp (hmem e he).1
    obtain ⟨hnone, htimes⟩ := band_vibes_times seq bdp.2.id hlen
    cases hv : band_vibes seq bdp.2.id with
    | none => exact absurd hbid.symm (hnone.mp hv e he)
    | some acts =>
      refine ⟨(bdp.2.id, band_vibes seq bdp.2.id), ?_, hbid, acts, hv, ?_⟩
      · exact List.mem_map.mpr ⟨bdp, hbdp, rfl⟩
      · rw [htimes acts hv, ← hbid]
        apply List.mem_map.mpr
        refine ⟨(i, e), ?_, rfl⟩
        apply List.mem_filter.mpr
        exact ⟨List.mk_mem_enum_iff_getElem?.mpr hie, by simp [hbid]⟩

/-- C12, witness: the bands 7 and 12 with the target of `draws_7_12`. -/
theorem start_cues_follow_slots_witness :
    game_two_bands.start 2 2 draws_7_12 = .ok game_two_bands_started ∧
      ∀ entry ∈ game_two_bands_started.start_vibes,
        (entry.2 = none ↔ ∀ e ∈ game_two_bands_started.data.sequence, e.1 ≠ entry.1) ∧
        ∀ acts, entry.2 = some acts →
          cue_times 0 acts =
            ((game_two_bands_started.data.sequence.enum.filter
                (fun p => decide (p.2.1 = entry.1))).map
              (fun p => (p.1 + 1, entry.1, dd5_effect p.2.2))) :=
  ⟨by with_unfolding_all decide,
   (start_cues_follow_slots game_two_bands game_two_bands_started 2 2 draws_7_12 (by decide)
     (by decide) (by with_unfolding_all decide)).2.1⟩

/-! ## C11: classifying a pitch value -/

theorem pitch_bucket_centre (v : ℚ) :
    bucket_centre (pitch_bucket v) = ((⌊(v + 5 / 4) * 2⌋ : ℚ) - 2) / 2 := by
  unfold bucket_centre pitch_bucket DOWN
  push_cast
  ring

/-- The centre of the bucket selected for `v` is within a quarter unit of `v`. -/
theorem pitch_bucket_close (v : ℚ) :
    -(1 / 4) < bucket_centre (pitch_bucket v) - v ∧ bucket_centre (pitch_bucket v) - v ≤ 1 / 4 := by
  rw [pitch_bucket_centre]
  have h1 : (⌊(v + 5 / 4) * 2⌋ : ℚ) ≤ (v + 5 / 4) * 2 := Int.floor_le _
  have h2 : (v + 5 / 4) * 2 < (⌊(v + 5 / 4) * 2⌋ : ℚ) + 1 := Int.lt_floor_add_one _
  constructor <;> linarith

/-- No bucket centre is nearer to `v` than the centre of the bucket selected. -/
theorem pitch_bucket_nearest (v : ℚ) (j : Dir) :
    |bucket_centre (pitch_bucket v) - v| ≤ |bucket_centre j - v| := by
  obtain ⟨hlo, hhi⟩ := pitch_bucket_close v
  have hc : bucket_centre (pitch_bucket v) = ((pitch_bucket v : Int) : ℚ) / 2 := rfl
  have hj : bucket_centre j = ((j : Int) : ℚ) / 2 := rfl
  have hpos := le_abs_self (bucket_centre j - v)
  have hneg := neg_abs_le (bucket_centre j - v)
  rw [abs_le]
  rcases lt_trichotomy j (pitch_bucket v) with hlt | heq | hgt
  · have hle : j + 1 ≤ pitch_bucket v := hlt
    have hq : ((j : Int) : ℚ) + 1 ≤ ((pitch_bucket v : Int) : ℚ) := by exact_mod_cast hle
    constructor <;> linarith
  · rw [heq]
    exact ⟨neg_abs_le _, le_abs_self _⟩
  · have hle : pitch_bucket v + 1 ≤ j := hgt
    have hq : ((pitch_bucket v : Int) : ℚ) + 1 ≤ ((j : Int) : ℚ) := by exact_mod_cast hle
    constructor <;> linarith

theorem pitch_bucket_range (v : ℚ) (hlo : -1 ≤ v) (hhi : v ≤ 1) :
    DOWN ≤ pitch_bucket v ∧ pitch_bucket v ≤ UP := by
  have h0 : (0 : Int) ≤ ⌊(v + 5 / 4) * 2⌋ := by
    apply Int.le_floor.mpr
    push_cast
    linarith
  have h4 : ⌊(v + 5 / 4) * 2⌋ < 5 := by
    apply Int.floor_lt.mpr
    push_cast
    linarith
  constructor
  · show (-2 : Int) ≤ ⌊(v + 5 / 4) * 2⌋ + (-2)
    omega
  · show ⌊(v + 5 / 4) * 2⌋ + (-2) ≤ (2 : Int)
    omega

/-- A value within the tolerance of the centre of its bucket is so far from the
bucket boundaries that an error of up to 1/20 in the sum `value + 1.25f` selects the
same bucket; and a bucket selected with such an error whose centre is within the
tolerance of the value is the bucket of the exact sum. -/
theorem pitch_bucket_stable (v e : ℚ) (he : |e| ≤ 1 / 20) :
    (|bucket_centre (pitch_bucket v) - v| ≤ pitch_tolerance →
      pitch_bucket (v + e) = pitch_bucket v) ∧
    (|bucket_centre (pitch_bucket (v + e)) - v| ≤ pitch_tolerance →
      pitch_bucket (v + e) = pitch_bucket v) := by
  obtain ⟨he1, he2⟩ := abs_le.mp he
  refine ⟨?_, ?_⟩
  · intro h
    rw [pitch_bucket_centre] at h
    obtain ⟨h1, h2⟩ := abs_le.mp h
    unfold pitch_tolerance at h1 h2
    have hfloor : ⌊(v + e + 5 / 4) * 2⌋ = ⌊(v + 5 / 4) * 2⌋ := by
      rw [Int.floor_eq_iff]
      constructor <;> linarith
    unfold pitch_bucket
    rw [hfloor]
  · intro h
    rw [pitch_bucket_centre] at h
    obtain ⟨h1, h2⟩ := abs_le.mp h
    unfold pitch_tolerance at h1 h2
    have hfloor : ⌊(v + 5 / 4) * 2⌋ = ⌊(v + e + 5 / 4) * 2⌋ := by
      rw [Int.floor_eq_iff]
      constructor <;> linarith
    unfold pitch_bucket
    rw [hfloor]

/-- What `updateBandPitch` does for a registered band with a non-zero id, in terms
of the bucket selected and its centre. -/
theorem updateBandPitch_spec (g : SequenceGame) (id : Nat) (ts v : ℚ) (bd : BandData)
    (hreg : mapFind id g.bands = some bd) (hid : bd.id = id) (hpos : id ≠ 0) :
    g.updateBandPitch id ts v =
      if |bucket_centre (pitch_bucket v) - v| ≤ pitch_tolerance ∧
          pitch_bucket v ≠ bd.cur_dir then
        if g.data.listening = true then
          match g.data.push_direction_change id ts (pitch_bucket v) with
          | .error f => .error f
          | .ok (d, out) =>
            .ok ({ g with bands := mapSet id { bd with cur_dir := pitch_bucket v } g.bands,
                          data := d }, out)
        else
          .ok ({ g with bands := mapSet id { bd with cur_dir := pitch_bucket v } g.bands }, [])
      else .ok (g, []) := by
  have hband : band g.bands id = bd := by simp [band, hreg]
  have hne : ¬ bd.id = 0 := by rw [hid]; exact hpos
  have hdiff : ((⌊(v + 5 / 4) * 2⌋ : ℚ) - 2) / 2 - v = bucket_centre (pitch_bucket v) - v := by
    rw [pitch_bucket_centre]
  have hdir : (⌊(v + 5 / 4) * 2⌋ + DOWN : Dir) = pitch_bucket v := rfl
  unfold SequenceGame.updateBandPitch
  simp only [hband, hne, if_false, hdiff, hdir, gt_iff_lt]
  rw [hid]
  by_cases h1 : |bucket_centre (pitch_bucket v) - v| ≤ pitch_tolerance
  · have h1' : ¬ (pitch_tolerance < |bucket_centre (pitch_bucket v) - v|) := not_lt.mpr h1
    by_cases h2 : pitch_bucket v = bd.cur_dir
    · simp [h1', h2]
    · simp only [h1', h1, h2, if_false, not_false_eq_true, and_self, if_true, ne_eq]
  · have h1' : pitch_tolerance < |bucket_centre (pitch_bucket v) - v| := not_le.mp h1
    simp [h1', h1]

/-- For the id 0, the id of the sentinel, `updatePitch` returns at once. -/
theorem updateBandPitch_id_zero (g : SequenceGame) (ts v : ℚ) (bd : BandData)
    (hreg : mapFind 0 g.bands = some bd) (hid : bd.id = 0) :
    g.updateBandPitch 0 ts v = .ok (g, []) := by
  have hband : band g.bands 0 = bd := by simp [band, hreg]
  unfold SequenceGame.updateBandPitch
  simp only [hband, hid, if_true]

/-- C11, counterexample: the binary32 value `0.35f` lies in `[-1, 1]`, its bucket is
`HIGH` and its distance from the centre 0.5 is `5033165/33554432`, more than 0.15, so
the value is in the dead zone between `LEVEL` and `HIGH` as the claim draws it; yet
for band 7, at rest in `LEVEL`, the change to `HIGH` is reported, that distance being
exactly the constant `0.15f`. And for a band registered under the id 0 the value 1,
the centre of `UP`, is not reported although the band is at rest in `LEVEL`. -/
theorem pitch_at_float_tolerance_is_reported :
    ((-1 : ℚ) ≤ pitch_0_35f ∧ pitch_0_35f ≤ 1) ∧
    pitch_bucket pitch_0_35f = HIGH ∧
    (3 : ℚ) / 20 < |bucket_centre (pitch_bucket pitch_0_35f) - pitch_0_35f| ∧
    mapFind 7 game_two_bands.bands = some { id := 7, cur_dir := LEVEL } ∧
    game_two_bands.updateBandPitch 7 5 pitch_0_35f =
      .ok ({ game_two_bands with
               bands := [(7, { id := 7, cur_dir := HIGH }), (12, { id := 12, cur_dir := LEVEL })] },
        []) ∧
    (SequenceGame.init 0).run [.addBand 0 LEVEL] = .ok game_band_zero ∧
    mapFind 0 game_band_zero.bands = some { id := 0, cur_dir := LEVEL } ∧
    pitch_bucket 1 = UP ∧
    |bucket_centre (pitch_bucket 1) - 1| ≤ (3 : ℚ) / 20 ∧
    game_band_zero.updateBandPitch 0 5 1 = .ok (game_band_zero, []) := by
  refine ⟨by with_unfolding_all decide, by with_unfolding_all decide,
    by with_unfolding_all decide, by decide, by with_unfolding_all decide,
    by with_unfolding_all decide, by decide, by with_unfolding_all decide,
    by with_unfolding_all decide, by with_unfolding_all decide⟩

/-- C11, as amended: for a band registered under the id `id` whose last reported
direction is `bd.cur_dir` and a pitch value `v` in `[-1, 1]`, in exact arithmetic:
the bucket `k = pitch_bucket v` selected by `updatePitch` is one of `DOWN .. UP` and
no bucket centre is nearer to `v` than its centre `c`. For a non-zero id, if
`|c - v|` is at most the constant `0.15f = 5033165/33554432` and `k` differs from the
last reported direction, the change is reported: `cur_dir` becomes `k` and, when
listening, `(band, k)` is appended to the bucket of `ts` in the backlog before
`advance_time` runs. Otherwise, in a dead zone or in the zone of the direction
already reported, and always for the id 0, the call returns the game unchanged and
triggers nothing. An error of up to 1/20 in the sum `value + 1.25f` changes none of
this. -/
theorem updatePitch_reports_bucket_changes (g : SequenceGame) (id : Nat) (ts v : ℚ)
    (bd : BandData) (hreg : mapFind id g.bands = some bd) (hid : bd.id = id)
    (hlo : -1 ≤ v) (hhi : v ≤ 1) :
    (DOWN ≤ pitch_bucket v ∧ pitch_bucket v ≤ UP) ∧
    (∀ j : Dir, |bucket_centre (pitch_bucket v) - v| ≤ |bucket_centre j - v|) ∧
    (id ≠ 0 →
      |bucket_centre (pitch_bucket v) - v| ≤ pitch_tolerance ∧ pitch_bucket v ≠ bd.cur_dir →
      (g.data.listening = false →
        g.updateBandPitch id ts v =
          .ok ({ g with bands := mapSet id { bd with cur_dir := pitch_bucket v } g.bands },
            [])) ∧
      (g.data.listening = true →
        g.updateBandPitch id ts v =
          match ({ g.data with
                   backlog := mapSet ts ((mapFind ts g.data.backlog).getD [] ++
                     [(id, pitch_bucket v)]) g.data.backlog } : GameData).advance_time id ts with
          | .error f => .error f
          | .ok (d, out) =>
            .ok ({ g with bands := mapSet id { bd with cur_dir := pitch_bucket v } g.bands,
                          data := d }, out))) ∧
    (id ≠ 0 →
      ¬ (|bucket_centre (pitch_bucket v) - v| ≤ pitch_tolerance ∧
          pitch_bucket v ≠ bd.cur_dir) →
      g.updateBandPitch id ts v = .ok (g, [])) ∧
    (id = 0 → g.updateBandPitch id ts v = .ok (g, [])) ∧
    (∀ e : ℚ, |e| ≤ 1 / 20 →
      (|bucket_centre (pitch_bucket v) - v| ≤ pitch_tolerance →
        pitch_bucket (v + e) = pitch_bucket v) ∧
      (|bucket_centre (pitch_bucket (v + e)) - v| ≤ pitch_tolerance →
        pitch_bucket (v + e) = pitch_bucket v)) := by
  refine ⟨pitch_bucket_range v hlo hhi, pitch_bucket_nearest v, ?_, ?_, ?_,
    fun e he => pitch_bucket_stable v e he⟩
  · intro hpos hrep
    rw [updateBandPitch_spec g id ts v bd hreg hid hpos, if_pos hrep]
    refine ⟨?_, ?_⟩
    · intro hl
      rw [if_neg (by simp [hl])]
    · intro hl
      rw [if_pos hl]
      rfl
  · intro hpos hrep
    rw [updateBandPitch_spec g id ts v bd hreg hid hpos, if_neg hrep]
  · intro hzero
    subst hzero
    exact updateBandPitch_id_zero g ts v bd hreg hid

/-- C11, witness: band 7 at rest in `LEVEL`, not listening. The value 1 selects `UP`
and is reported; the value `0.35f` selects `HIGH` at a distance of exactly `0.15f` and
is reported; the value 3/4 lies in the dead zone below `UP` and changes nothing. -/
theorem updatePitch_reports_bucket_changes_witness :
    pitch_bucket 1 = UP ∧
    game_two_bands.updateBandPitch 7 5 1 =
      .ok ({ game_two_bands with
               bands := mapSet 7 { id := 7, cur_dir := pitch_bucket 1 } game_two_bands.bands },
        []) ∧
    game_two_bands.updateBandPitch 7 5 pitch_0_35f =
      .ok ({ game_two_bands with
               bands := mapSet 7 { id := 7, cur_dir := pitch_bucket pitch_0_35f }
                 game_two_bands.bands },
        []) ∧
    game_two_bands.updateBandPitch 7 5 (3 / 4) = .ok (game_two_bands, []) :=
  ⟨by with_unfolding_all decide,
   ((updatePitch_reports_bucket_changes game_two_bands 7 5 1 { id := 7, cur_dir := LEVEL }
      (by decide) rfl (by decide) (by decide)).2.2.1 (by decide)
      (by with_unfolding_all decide)).1 rfl,
   ((updatePitch_reports_bucket_changes game_two_bands 7 5 pitch_0_35f
      { id := 7, cur_dir := LEVEL } (by decide) rfl (by with_unfolding_all decide)
      (by with_unfolding_all decide)).2.2.1 (by decide)
      (by with_unfolding_all decide)).1 rfl,
   (updatePitch_reports_bucket_changes game_two_bands 7 5 (3 / 4) { id := 7, cur_dir := LEVEL }
      (by decide) rfl (by with_unfolding_all decide)
      (by with_unfolding_all decide)).2.2.2.1 (by decide) (by with_unfolding_all decide)⟩

/-! ## C14: observations queued behind the last match -/

/-- Reading `sequence[current]` with the index at or past the end is a fault. -/
theorem test_sequence_past_end (d : GameData) (id : Nat) (dir : Dir)
    (h : d.sequence.length ≤ d.current) :
    d.test_sequence id dir = .error Fault.outOfBounds := by
  unfold GameData.test_sequence
  rw [List.getElem?_eq_none h]

/-- C14, failing input: bands 7 and 12 play the target
`[(7, UP), (12, DOWN), (7, LEVEL), (12, HIGH)]` up to index 3; band 12 reports `HIGH`
at time 13 and `UP` at time 14 while the watermark of band 7 stands at 12, so both
buckets stay queued. When band 7 submits time 15, the flush judges `(12, HIGH)`,
which completes the sequence (index 4 of 4, listening off), and goes on to the
bucket of time 14: `test_sequence(12, UP)` reads `sequence[4]`, past the end. -/
theorem flush_judges_past_sequence_end :
    ((SequenceGame.init 0).run calls_before_overrun).map (fun g => g.data) =
      .ok data_before_overrun ∧
    data_before_overrun.test_sequence 12 HIGH =
      .ok (true, { data_before_overrun with current := 4, listening := false }) ∧
    ({ data_before_overrun with current := 4, listening := false } : GameData).sequence.length
      = 4 ∧
    ({ data_before_overrun with current := 4, listening := false } : GameData).test_sequence
      12 UP = .error Fault.outOfBounds ∧
    data_before_overrun.advance_time 7 15 = .error Fault.outOfBounds ∧
    (SequenceGame.init 0).run (calls_before_overrun ++ [.updateBandTime 7 15]) =
      .error Fault.outOfBounds := by
  refine ⟨by with_unfolding_all decide, by decide, by decide, by decide, by decide,
    by with_unfolding_all decide⟩

/-! ## C15: successive entries of one band -/

/-- C15, failing input: for the bands 7 and 12 at rest in `LEVEL` the draws
`draws_repeat` are all accepted and give `[(7, UP), (12, DOWN), (7, UP), (12, HIGH)]`:
the two successive entries of band 7 ask for `UP` both times. Once the first two
entries are matched, band 7 stands in `UP`; a further pitch value in the zone of `UP`
reports nothing, and the band has to report another direction first, which is
judged as a miss, before it can report `UP` again. -/
theorem generated_sequence_repeats_direction :
    (GameData.init 0).generate_sequence bands_7_12 [7, 12] 4 draws_repeat =
      .ok { GameData.init 0 with sequence := target_repeat } ∧
    (target_repeat.filter (fun e => decide (e.1 = 7))).map Prod.snd = [UP, UP] ∧
    ((SequenceGame.init 0).run calls_repeat_round).map
        (fun g => (g.data.sequence, g.data.current, g.data.missed)) =
      .ok (target_repeat, 2, 0) ∧
    ((SequenceGame.init 0).run calls_repeat_round).map
        (fun g => (g.data.listening, mapFind 7 g.bands)) =
      .ok (true, some { id := 7, cur_dir := UP }) ∧
    (SequenceGame.init 0).run (calls_repeat_round ++ [.updateBandPitch 7 12 1]) =
      (SequenceGame.init 0).run calls_repeat_round ∧
    ((SequenceGame.init 0).run (calls_repeat_round ++
        [.updateBandPitch 7 12 (1 / 2), .updateBandTime 12 12,
         .updateBandPitch 7 13 1, .updateBandTime 12 13])).map
        (fun g => (g.data.current, g.data.missed)) = .ok (3, 1) := by
  refine ⟨by decide, by decide, by with_unfolding_all decide, by with_unfolding_all decide,
    by with_unfolding_all decide, by with_unfolding_all decide⟩

end CocosPoc
